import Mathlib

/-!
Verification of the Knowledge Ingestion & Retrieval core of `elysium-agents`.

This file shallowly embeds the Python services the specification claims are
about, and proves or refutes each claim.  The embedding conventions:

* Python strings are modelled as `String` / `List Char`; only the ASCII
  whitespace set of `str.strip` / regex `\s` is modelled, since every string
  manipulated by the claims is ASCII.
* ISO-8601 timestamps are modelled as `Nat` instants: ISO strings compare
  lexicographically exactly as the instants they denote, so the chronological
  order used by the claims is preserved.
* Python dicts keyed by strings are modelled as insertion-ordered association
  lists (`alistInsert` keeps the position of an existing key, like CPython).
* Network calls (LLM, embeddings, vector search, browser) are modelled as
  oracle inputs that the theorems quantify over.
-/

set_option maxHeartbeats 1000000

namespace Elysium

/-- Python whitespace characters in the ASCII range, the set used by
`str.strip()` and by the regex class `\s` in `text_chunking_services.py`. -/
def pyIsSpace (c : Char) : Bool :=
  c = ' ' || c = '\t' || c = '\n' || c = '\r' || c = '\x0b' || c = '\x0c'

/-- Python `str.strip()` on a character list. -/
def pyStrip (l : List Char) : List Char :=
  ((l.dropWhile pyIsSpace).reverse.dropWhile pyIsSpace).reverse

/-- Python slice `s[a:b]` (indices clamp to the string length). -/
def pySlice (l : List Char) (a b : Nat) : List Char :=
  (l.take b).drop a

/-! ## 4.2 Text Chunker — `text_chunking_services.chunk_text_content` -/

/-- A sentence terminator of the regex class `[.!?]`. -/
def sentTerm (c : Char) : Bool :=
  c = '.' || c = '!' || c = '?'

/-- End position (exclusive, relative to `i`) of the last match of the regex
`[.!?]\s+` in the window, as returned by `re.finditer`: a terminator followed
by a maximal (greedy) whitespace run.  `i` is the index of the head of `l`. -/
def sentLastEnd : List Char → Nat → Option Nat
  | [], _ => none
  | c :: rest, i =>
    if sentTerm c && (match rest.head? with | some d => pyIsSpace d | none => false) then
      match sentLastEnd rest (i + 1) with
      | some e => some e
      | none => some (i + 1 + (rest.takeWhile pyIsSpace).length)
    else
      sentLastEnd rest (i + 1)

/-- Index of the last `'\n'` in a list, if any. -/
def lastNewlineIdx : List Char → Option Nat
  | [] => none
  | c :: rest =>
    match lastNewlineIdx rest with
    | some j => some (j + 1)
    | none => if c = '\n' then some 0 else none

/-- End position of the first match of `re.search(r'\n\s*\n', ·)`: at the first
`'\n'` from which the greedy `\s*` can backtrack onto a later `'\n'` inside the
following whitespace run, the match ends just after that last such `'\n'`. -/
def paraFirstEnd : List Char → Nat → Option Nat
  | [], _ => none
  | c :: rest, i =>
    if c = '\n' then
      match lastNewlineIdx (rest.takeWhile pyIsSpace) with
      | some j => some (i + 1 + j + 1)
      | none => paraFirstEnd rest (i + 1)
    else
      paraFirstEnd rest (i + 1)

/-- End position of the first match of `re.search(r'\n', ·)`. -/
def lineFirstEnd : List Char → Option Nat
  | [] => none
  | c :: rest =>
    if c = '\n' then some 1 else
      match lineFirstEnd rest with
      | some e => some (e + 1)
      | none => none

/-- The adjusted chunk end for a non-final window (`chunk_text_content`
lines 59–107): prefer the last sentence boundary in the last 20% of the
window, else the first paragraph break, else the first newline, else a hard
cut at `start + chunk_size`. -/
def chunkEnd (text : List Char) (chunk_size start : Nat) : Nat :=
  match sentLastEnd (pySlice text (max start (start + chunk_size - chunk_size / 5))
      (start + chunk_size)) 0 with
  | some e => max start (start + chunk_size - chunk_size / 5) + e
  | none =>
    match paraFirstEnd (pySlice text (max start (start + chunk_size - chunk_size / 5))
        (start + chunk_size)) 0 with
    | some e => max start (start + chunk_size - chunk_size / 5) + e
    | none =>
      match lineFirstEnd (pySlice text (max start (start + chunk_size - chunk_size / 5))
          (start + chunk_size)) with
      | some e => max start (start + chunk_size - chunk_size / 5) + e
      | none => start + chunk_size

/-- `start = max(start + 1, end - chunk_overlap)` — line 115 of
`text_chunking_services.py`. -/
def chunkNextStart (start e ov : Nat) : Nat :=
  max (start + 1) (e - ov)

/-- The `while start < text_length` loop of `chunk_text_content`, with explicit
fuel (the fuel only bounds the number of iterations; `chunk_loop_fuel_irrel`
below shows `text.length - start` iterations always suffice). -/
def chunkLoop (text : List Char) (chunk_size ov : Nat) : Nat → Nat → List (List Char)
  | 0, _ => []
  | fuel + 1, start =>
    if start < text.length then
      if text.length ≤ start + chunk_size then
        if pyStrip (text.drop start) = [] then [] else [pyStrip (text.drop start)]
      else
        if pyStrip (pySlice text start (chunkEnd text chunk_size start)) = [] then
          chunkLoop text chunk_size ov fuel
            (chunkNextStart start (chunkEnd text chunk_size start) ov)
        else
          pyStrip (pySlice text start (chunkEnd text chunk_size start)) ::
            chunkLoop text chunk_size ov fuel
              (chunkNextStart start (chunkEnd text chunk_size start) ov)
    else []

/-- `chunk_text_content(text_content, chunk_size, chunk_overlap)` from
`text_chunking_services.py`. -/
def chunk_text_content (text_content : String) (chunk_size chunk_overlap : Nat) :
    List String :=
  if (pyStrip text_content.toList).length = 0 then []
  else if (pyStrip text_content.toList).length ≤ chunk_size then
    [String.mk (pyStrip text_content.toList)]
  else
    (chunkLoop (pyStrip text_content.toList) chunk_size
        (if chunk_size ≤ chunk_overlap then chunk_size / 10 else chunk_overlap)
        (pyStrip text_content.toList).length 0).map String.mk

/-! ### Bounds on the chunker scanners -/

theorem pyStrip_length_le (l : List Char) : (pyStrip l).length ≤ l.length := by
  unfold pyStrip
  have h1 : (l.dropWhile pyIsSpace).length ≤ l.length :=
    List.Sublist.length_le (List.dropWhile_sublist _)
  have h2 : ((l.dropWhile pyIsSpace).reverse.dropWhile pyIsSpace).length ≤
      (l.dropWhile pyIsSpace).reverse.length :=
    List.Sublist.length_le (List.dropWhile_sublist _)
  simp only [List.length_reverse] at *
  omega

theorem pySlice_length_le (l : List Char) (a b : Nat) :
    (pySlice l a b).length ≤ b - a := by
  simp only [pySlice, List.length_drop, List.length_take]
  omega

theorem sentLastEnd_le :
    ∀ (l : List Char) (i e : Nat), sentLastEnd l i = some e → e ≤ i + l.length := by
  intro l
  induction l with
  | nil => intro i e h; simp [sentLastEnd] at h
  | cons c rest ih =>
    intro i e h
    unfold sentLastEnd at h
    split at h
    · rcases hrec : sentLastEnd rest (i + 1) with _ | e'
      · rw [hrec] at h
        simp only [Option.some.injEq] at h
        have htw : (rest.takeWhile pyIsSpace).length ≤ rest.length :=
          List.Sublist.length_le (List.takeWhile_sublist _)
        simp only [List.length_cons]
        omega
      · rw [hrec] at h
        simp only [Option.some.injEq] at h
        subst h
        have := ih (i + 1) e' hrec
        simp only [List.length_cons]
        omega
    · have := ih (i + 1) e h
      simp only [List.length_cons]
      omega

theorem lastNewlineIdx_lt :
    ∀ (l : List Char) (j : Nat), lastNewlineIdx l = some j → j < l.length := by
  intro l
  induction l with
  | nil => intro j h; simp [lastNewlineIdx] at h
  | cons c rest ih =>
    intro j h
    unfold lastNewlineIdx at h
    rcases hrec : lastNewlineIdx rest with _ | j'
    · rw [hrec] at h
      by_cases hc : c = '\n'
      · simp only [if_pos hc, Option.some.injEq] at h
        subst h
        simp
      · simp [if_neg hc] at h
    · rw [hrec] at h
      simp only [Option.some.injEq] at h
      subst h
      have := ih j' hrec
      simp only [List.length_cons]
      omega

theorem paraFirstEnd_le :
    ∀ (l : List Char) (i e : Nat), paraFirstEnd l i = some e → e ≤ i + l.length := by
  intro l
  induction l with
  | nil => intro i e h; simp [paraFirstEnd] at h
  | cons c rest ih =>
    intro i e h
    unfold paraFirstEnd at h
    split at h
    · rcases hrec : lastNewlineIdx (rest.takeWhile pyIsSpace) with _ | j
      · rw [hrec] at h
        have := ih (i + 1) e h
        simp only [List.length_cons]
        omega
      · rw [hrec] at h
        simp only [Option.some.injEq] at h
        subst h
        have hj := lastNewlineIdx_lt _ j hrec
        have htw : (rest.takeWhile pyIsSpace).length ≤ rest.length :=
          List.Sublist.length_le (List.takeWhile_sublist _)
        simp only [List.length_cons]
        omega
    · have := ih (i + 1) e h
      simp only [List.length_cons]
      omega

theorem lineFirstEnd_le :
    ∀ (l : List Char) (e : Nat), lineFirstEnd l = some e → e ≤ l.length := by
  intro l
  induction l with
  | nil => intro e h; simp [lineFirstEnd] at h
  | cons c rest ih =>
    intro e h
    unfold lineFirstEnd at h
    split at h
    · simp only [Option.some.injEq] at h
      subst h
      simp
    · rcases hrec : lineFirstEnd rest with _ | e'
      · rw [hrec] at h; simp at h
      · rw [hrec] at h
        simp only [Option.some.injEq] at h
        subst h
        have := ih e' hrec
        simp only [List.length_cons]
        omega

theorem chunkEnd_le (text : List Char) (cs start : Nat) :
    chunkEnd text cs start ≤ start + cs := by
  unfold chunkEnd
  have hss : max start (start + cs - cs / 5) ≤ start + cs := by omega
  have hwin : (pySlice text (max start (start + cs - cs / 5)) (start + cs)).length ≤
      start + cs - max start (start + cs - cs / 5) :=
    pySlice_length_le _ _ _
  split
  · next e he =>
    have := sentLastEnd_le _ 0 e he
    omega
  · split
    · next e he =>
      have := paraFirstEnd_le _ 0 e he
      omega
    · split
      · next e he =>
        have := lineFirstEnd_le _ e he
        omega
      · omega

theorem chunkLoop_chunk_le :
    ∀ (fuel : Nat) (text : List Char) (cs ov start : Nat) (c : List Char),
      c ∈ chunkLoop text cs ov fuel start → c.length ≤ cs := by
  intro fuel
  induction fuel with
  | zero => intro text cs ov start c h; simp [chunkLoop] at h
  | succ f ih =>
    intro text cs ov start c h
    unfold chunkLoop at h
    split at h
    · next hlt =>
      split at h
      · next hle =>
        split at h
        · simp at h
        · simp only [List.mem_singleton] at h
          subst h
          have h1 := pyStrip_length_le (text.drop start)
          simp only [List.length_drop] at h1
          omega
      · split at h
        · exact ih text cs ov _ c h
        · rcases List.mem_cons.mp h with hc | hc
          · subst hc
            have h1 := pyStrip_length_le (pySlice text start (chunkEnd text cs start))
            have h2 := pySlice_length_le text start (chunkEnd text cs start)
            have h3 := chunkEnd_le text cs start
            omega
          · exact ih text cs ov _ c hc
    · simp at h

theorem chunkNextStart_gt (start e ov : Nat) : start < chunkNextStart start e ov :=
  Nat.lt_of_lt_of_le (Nat.lt_succ_self start) (Nat.le_max_left _ _)

theorem chunkLoop_fuel_irrel :
    ∀ (n : Nat) (text : List Char) (cs ov f₁ f₂ start : Nat),
      text.length - start ≤ n →
      text.length - start ≤ f₁ → text.length - start ≤ f₂ →
      chunkLoop text cs ov f₁ start = chunkLoop text cs ov f₂ start := by
  intro n
  induction n with
  | zero =>
    intro text cs ov f₁ f₂ start hn h1 h2
    have hge : text.length ≤ start := by omega
    rcases f₁ with _ | g₁ <;> rcases f₂ with _ | g₂ <;>
      simp [chunkLoop, Nat.not_lt.mpr hge]
  | succ m ih =>
    intro text cs ov f₁ f₂ start hn h1 h2
    by_cases hge : text.length ≤ start
    · rcases f₁ with _ | g₁ <;> rcases f₂ with _ | g₂ <;>
        simp [chunkLoop, Nat.not_lt.mpr hge]
    · have hlt : start < text.length := by omega
      rcases f₁ with _ | g₁
      · omega
      rcases f₂ with _ | g₂
      · omega
      have hnext := chunkNextStart_gt start (chunkEnd text cs start) ov
      have hrec : chunkLoop text cs ov g₁ (chunkNextStart start (chunkEnd text cs start) ov) =
          chunkLoop text cs ov g₂ (chunkNextStart start (chunkEnd text cs start) ov) :=
        ih text cs ov g₁ g₂ _ (by omega) (by omega) (by omega)
      simp only [chunkLoop, if_pos hlt]
      split
      · rfl
      · rw [hrec]

/-- C6: `chunk_text_content` terminates on every input: the next window start
`max(start + 1, end − chunk_overlap)` is strictly greater than the previous
`start`, so the loop needs at most `text.length − start` iterations — any two
fuel bounds at least that long give the same result. -/
theorem chunk_text_content_terminates :
    (∀ start e ov, start < chunkNextStart start e ov) ∧
    (∀ (text : List Char) (cs ov f₁ f₂ start : Nat),
      text.length - start ≤ f₁ → text.length - start ≤ f₂ →
      chunkLoop text cs ov f₁ start = chunkLoop text cs ov f₂ start) :=
  ⟨chunkNextStart_gt, fun text cs ov f₁ f₂ start h1 h2 =>
    chunkLoop_fuel_irrel (text.length - start) text cs ov f₁ f₂ start le_rfl h1 h2⟩

theorem chunk_text_content_terminates_witness :
    0 < chunkNextStart 0 5 3 ∧
      chunkLoop "ab   cd   ef".toList 5 3 12 0 = chunkLoop "ab   cd   ef".toList 5 3 20 0 :=
  ⟨chunk_text_content_terminates.1 0 5 3,
    chunk_text_content_terminates.2 "ab   cd   ef".toList 5 3 12 20 0
      (by decide) (by decide)⟩

/-- C5 (counterexample): with `chunk_size = 5`, `chunk_overlap = 3` on
`"ab   cd   ef"` the first returned chunk is `"ab"` of length 2 ≤ 3 and it is
not the last chunk — whitespace stripping can shrink a non-final chunk below
`chunk_overlap`, so the claimed strict lower bound fails. -/
theorem chunk_bounds_counterexample :
    ¬ ((∀ c ∈ chunk_text_content "ab   cd   ef" 5 3, c.length ≤ 5) ∧
       (∀ c ∈ (chunk_text_content "ab   cd   ef" 5 3).dropLast, 3 < c.length)) := by
  decide

/-- C5 (amended): every chunk returned by `chunk_text_content` has length at
most `chunk_size`; the claimed strict lower bound `chunk_overlap <` on
non-final chunks does not hold because each window is whitespace-stripped. -/
theorem chunk_length_le_chunk_size :
    ∀ (text : String) (cs ov : Nat) (c : String),
      c ∈ chunk_text_content text cs ov → c.length ≤ cs := by
  intro text cs ov c h
  unfold chunk_text_content at h
  split at h
  · simp at h
  · split at h
    · next hle =>
      simp only [List.mem_singleton] at h
      subst h
      simpa using hle
    · rcases List.mem_map.mp h with ⟨l, hl, rfl⟩
      simpa using chunkLoop_chunk_le _ _ _ _ _ l hl

theorem chunk_length_le_chunk_size_witness :
    "hello" ∈ chunk_text_content "hello" 1500 200 ∧ "hello".length ≤ 1500 :=
  ⟨by decide, chunk_length_le_chunk_size "hello" 1500 200 "hello" (by decide)⟩

/-! ## Stable sorting (MongoDB `sort` and Python `sorted`) -/

/-- Insert into a sorted list, before the first element for which `le` fails
(ties keep the inserted element first, matching a stable sort that processes
the original list from the left). -/
def insOrdered (le : α → α → Bool) (a : α) : List α → List α
  | [] => [a]
  | b :: l => if le a b then a :: b :: l else b :: insOrdered le a l

/-- Stable insertion sort with respect to the boolean comparator `le`. -/
def pySortStable (le : α → α → Bool) : List α → List α
  | [] => []
  | a :: l => insOrdered le a (pySortStable le l)

theorem insOrdered_perm (le : α → α → Bool) (a : α) :
    ∀ l : List α, List.Perm (insOrdered le a l) (a :: l) := by
  intro l
  induction l with
  | nil => simp [insOrdered]
  | cons b l ih =>
    unfold insOrdered
    split
    · exact List.Perm.refl _
    · exact (List.Perm.cons b ih).trans (List.Perm.swap a b l)

theorem pySortStable_perm (le : α → α → Bool) :
    ∀ l : List α, List.Perm (pySortStable le l) l := by
  intro l
  induction l with
  | nil => simp [pySortStable]
  | cons a l ih =>
    exact (insOrdered_perm le a (pySortStable le l)).trans (List.Perm.cons a ih)

theorem insOrdered_pairwise (le : α → α → Bool)
    (htot : ∀ x y : α, le x y = false → le y x = true)
    (htrans : ∀ x y z : α, le x y = true → le y z = true → le x z = true) (a : α) :
    ∀ l : List α, List.Pairwise (fun x y => le x y = true) l →
      List.Pairwise (fun x y => le x y = true) (insOrdered le a l) := by
  intro l
  induction l with
  | nil => intro _; simp [insOrdered]
  | cons b l ih =>
    intro hp
    rcases List.pairwise_cons.mp hp with ⟨hb, hl⟩
    unfold insOrdered
    split
    · next hab =>
      refine List.pairwise_cons.mpr ⟨?_, hp⟩
      intro c hc
      rcases List.mem_cons.mp hc with rfl | hc
      · exact hab
      · exact htrans a b c hab (hb c hc)
    · next hab =>
      refine List.pairwise_cons.mpr ⟨?_, ih hl⟩
      intro c hc
      rcases List.mem_cons.mp ((insOrdered_perm le a l).mem_iff.mp hc) with rfl | hc
      · exact htot _ _ (by simpa using hab)
      · exact hb c hc

theorem pySortStable_pairwise (le : α → α → Bool)
    (htot : ∀ x y : α, le x y = false → le y x = true)
    (htrans : ∀ x y z : α, le x y = true → le y z = true → le x z = true) :
    ∀ l : List α, List.Pairwise (fun x y => le x y = true) (pySortStable le l) := by
  intro l
  induction l with
  | nil => simp [pySortStable]
  | cons a l ih => exact insOrdered_pairwise le htot htrans a _ ih

/-! ## 4.6 Chat history fetch — `atlas_chat_session_services.get_chat_messages_for_session`

A document of the `atlas_chat_mesages` collection.  `created_at` is stored as
an ISO-8601 string; it is modelled as a `Nat` instant (ISO strings compare
lexicographically exactly as the instants they denote). -/

structure ChatMessage where
  agent_id : String
  chat_session_id : String
  conversation_id : Option String
  message_id : String
  role : String
  content : String
  created_at : Nat
deriving DecidableEq

/-- The MongoDB query built at lines 165–167: always matches on `agent_id` and
`chat_session_id`; the `conversation_id` clause is added only when the argument
is truthy (not `None` and non-empty). -/
def chatMessageMatches (agent_id chat_session_id : String)
    (conversation_id : Option String) (m : ChatMessage) : Bool :=
  m.agent_id = agent_id && m.chat_session_id = chat_session_id &&
    (match conversation_id with
     | some c => if c = "" then true else m.conversation_id = some c
     | none => true)

/-- `get_chat_messages_for_session` (lines 138–189): guard on empty ids, filter
by the query, `sort("created_at", 1)` (ascending), then `limit(limit)`.
Callers always pass a positive limit (the orchestrator passes 10, the session
service defaults to 50), so Mongo's `limit(0) = unlimited` special case is not
modelled. -/
def get_chat_messages_for_session (agent_id chat_session_id : String) (limit : Nat)
    (conversation_id : Option String) (db : List ChatMessage) : List ChatMessage :=
  if agent_id = "" || chat_session_id = "" then []
  else
    ((pySortStable (fun a b => a.created_at ≤ b.created_at)
        (db.filter (chatMessageMatches agent_id chat_session_id conversation_id))).take
      limit)

/-- C1 (code-bug evidence): with two messages in the conversation and
`limit = 1`, the fetch returns the message with `created_at = 0` — the
*oldest* — while the claim requires the most recent one (`created_at = 1`).
`sort("created_at", 1).limit(N)` takes the first N of the ascending order,
so once a conversation exceeds N messages the fetched history freezes on the
N oldest messages. -/
theorem get_chat_messages_returns_oldest :
    get_chat_messages_for_session "a1" "s1" 1 (some "c1")
        [⟨"a1", "s1", some "c1", "m0", "user", "hello", 0⟩,
         ⟨"a1", "s1", some "c1", "m1", "agent", "hi", 1⟩] =
      [⟨"a1", "s1", some "c1", "m0", "user", "hello", 0⟩] := by
  decide

/-! ## 4.6 Chat orchestrator timestamps — `agent_chat_services.chat_with_agent_v1`

Lines 157–159 generate the user-message id and timestamp before the LLM call;
line 222 generates the agent-message timestamp after the handler returns; lines
239–251 build the two persisted payloads.  `additional_params` is the raw
client payload (`atlas_chat_controllers.py` line 35), so its `created_at`
entry, when truthy, replaces the server-side user timestamp. -/

structure PersistedMessage where
  message_id : String
  role : String
  content : String
  created_at : Nat
deriving DecidableEq

/-- The pair `(user_payload, agent_payload)` persisted by `chat_with_agent_v1`:
`now_before_llm` and `now_after_llm` are the two wall-clock reads (before the
LLM call and after it), and `params_created_at` is
`additional_params.get("created_at")`. -/
def chat_persisted_payloads (params_created_at : Option Nat)
    (user_message_id agent_message_id message response_text : String)
    (now_before_llm now_after_llm : Nat) : PersistedMessage × PersistedMessage :=
  (⟨user_message_id, "user", message, params_created_at.getD now_before_llm⟩,
   ⟨agent_message_id, "agent", response_text, now_after_llm⟩)

/-- C7 (counterexample): a caller-supplied `additional_params["created_at"]`
later than the agent timestamp makes the persisted user message *newer* than
the persisted agent message, even though the wall clock was monotone
(`0 ≤ 1`): the user timestamp is not always generated before the LLM call. -/
theorem chat_created_at_counterexample :
    (chat_persisted_payloads (some 5) "u" "g" "q" "r" 0 1).2.created_at <
      (chat_persisted_payloads (some 5) "u" "g" "q" "r" 0 1).1.created_at := by
  decide

/-- C7 (amended): within a single orchestrator invocation, if the caller
supplies no `created_at` override in `additional_params` (or supplies one that
is not later than the agent timestamp), the persisted user message's
`created_at` is at most the persisted agent message's `created_at`, because
the wall clock read before the LLM call precedes the one read after it. -/
theorem chat_created_at_monotone (params_created_at : Option Nat)
    (uid gid msg resp : String) (now_before_llm now_after_llm : Nat)
    (hclock : now_before_llm ≤ now_after_llm)
    (hparams : ∀ t, params_created_at = some t → t ≤ now_after_llm) :
    (chat_persisted_payloads params_created_at uid gid msg resp
        now_before_llm now_after_llm).1.created_at ≤
      (chat_persisted_payloads params_created_at uid gid msg resp
        now_before_llm now_after_llm).2.created_at := by
  cases params_created_at with
  | none => simpa [chat_persisted_payloads] using hclock
  | some t => simpa [chat_persisted_payloads] using hparams t rfl

theorem chat_created_at_monotone_witness :
    (chat_persisted_payloads none "u" "g" "q" "r" 3 7).1.created_at ≤
      (chat_persisted_payloads none "u" "g" "q" "r" 3 7).2.created_at :=
  chat_created_at_monotone none "u" "g" "q" "r" 3 7 (by decide)
    (fun t ht => by simp at ht)

/-! ## 4.6 Prompt assembly — `agent_chat_services.build_messages_list` -/

/-- An OpenAI-style message. -/
structure ChatMsg where
  role : String
  content : String
deriving DecidableEq

/-- The fields of the agent document read by `build_messages_list`. -/
structure AgentData where
  agent_name : Option String
  system_prompt : Option String
deriving DecidableEq

/-- A chat-history document as read by `build_messages_list` (`hist_msg.get`). -/
structure HistMsg where
  role : Option String
  content : Option String
deriving DecidableEq

/-- `f"You are a virtual assistant named **{agent_name}**.\n\n" if agent_name
else ""` (line 83). -/
def agent_identity (agent_name : Option String) : String :=
  match agent_name with
  | some n => if n = "" then "" else "You are a virtual assistant named **" ++ n ++ "**.\n\n"
  | none => ""

/-- The fixed body of the instructional system message (lines 88–111). -/
def core_instructions : String :=
  "You will receive:\n" ++
  "1. A user message (the question or request)\n" ++
  "2. A Knowledge Base containing relevant information\n\n" ++
  "Your task is to generate a clear, accurate, and helpful response by:\n" ++
  "- Understanding the user\x27s message\n" ++
  "- Using the Knowledge Base as the primary source of truth\n" ++
  "- Combining information only when it is relevant and consistent\n\n" ++
  "CONTENT RULES:\n" ++
  "- If the Knowledge Base contains the answer, use it\n" ++
  "- If the Knowledge Base partially contains the answer, respond using only what is available\n" ++
  "- If the Knowledge Base does not contain the answer, clearly state that the information is not available\n" ++
  "- Do not invent facts or make assumptions beyond the provided Knowledge Base\n\n" ++
  "FORMATTING RULES:\n" ++
  "- Format all responses in clear, proper Markdown\n" ++
  "- Use **bold** for important terms and emphasis\n" ++
  "- Use headers (## or ###) to structure longer responses\n" ++
  "- Use bullet points (-) or numbered lists (1.) for multiple items\n" ++
  "- Use `code formatting` for technical terms, IDs, or specific values\n" ++
  "- Use > blockquotes for important notes or warnings\n" ++
  "- For code blocks: Use ```language syntax and keep lines reasonably short (max 80 chars) for better readability\n" ++
  "- For tables: Keep columns concise and use | alignment for clean formatting\n" ++
  "- For wide content: Break into smaller, more digestible chunks rather than creating overly wide tables or code blocks\n" ++
  "- Keep responses concise, well-structured, and user-friendly"

/-- The Knowledge-Base wrapper message content (lines 136–144). -/
def kb_message_content (knowledge_base_string : String) : String :=
  "The following is the Knowledge Base provided to you.\n\n" ++
  "Guidelines:\n" ++
  "- Treat this Knowledge Base as the authoritative source\n" ++
  "- Do not use external knowledge\n" ++
  "- Do not invent or assume missing details\n\n" ++
  "Knowledge Base:\n\n" ++ knowledge_base_string

/-- `role = "assistant" if hist_msg.get("role") == "agent" else
hist_msg.get("role", "user")` (line 126). -/
def histRoleMapped (h : HistMsg) : String :=
  if h.role = some "agent" then "assistant" else h.role.getD "user"

/-- `build_messages_list` (lines 75–153): instructional system message, then
the agent-specific system prompt if truthy, then the mapped chat history, then
the Knowledge-Base wrapper if the KB string is truthy, and the query last. -/
def build_messages_list (agent_data : Option AgentData)
    (message knowledge_base_string : String) (chat_history : List HistMsg) :
    List ChatMsg :=
  [⟨"system", agent_identity (agent_data.bind AgentData.agent_name) ++ core_instructions⟩]
  ++ (match agent_data.bind AgentData.system_prompt with
      | some sp => if sp = "" then [] else [⟨"system", sp⟩]
      | none => [])
  ++ chat_history.map (fun h => ⟨histRoleMapped h, h.content.getD ""⟩)
  ++ (if knowledge_base_string = "" then []
      else [⟨"user", kb_message_content knowledge_base_string⟩])
  ++ [⟨"user", message⟩]

/-- `enhance_user_message` (lines 463–525): the structured LLM output is an
oracle; its `enhanced_message` is stripped and, when falsy (or on any
exception, modelled by `none`), the raw message is returned instead. -/
def enhance_user_message (message : String) (llm_output : Option String) : String :=
  match llm_output with
  | none => message
  | some s => if pyStrip s.toList = [] then message else String.mk (pyStrip s.toList)

/-- The messages list sent to the LLM by `chat_with_agent_v1` (line 189): the
query passed to `build_messages_list` is the *enhanced* message. -/
def chat_messages_for_llm (agent_data : Option AgentData) (message : String)
    (llm_enhance_output : Option String) (knowledge_base_string : String)
    (chat_history : List HistMsg) : List ChatMsg :=
  build_messages_list agent_data (enhance_user_message message llm_enhance_output)
    knowledge_base_string chat_history

/-- C9 (counterexample): when query enhancement rewrites `"again?"` into
`"Who are you?"`, the assembled list does not end with the raw user query —
`chat_with_agent_v1` passes the enhanced message to `build_messages_list`. -/
theorem chat_messages_last_counterexample :
    (chat_messages_for_llm none "again?" (some "Who are you?") "" []).getLast? ≠
      some ⟨"user", "again?"⟩ := by
  decide

/-- C9 (amended): the assembled list always ends with the *(possibly
enhanced)* user query as a `user`-role message (equal to the raw query exactly
when enhancement falls back or returns it unchanged), and the instructional
system message, agent system prompt, history messages and Knowledge-Base block
all occur strictly earlier (in the list with the last element removed). -/
theorem chat_messages_end_with_enhanced_query (agent_data : Option AgentData)
    (message : String) (llm_enhance_output : Option String)
    (knowledge_base_string : String) (chat_history : List HistMsg) :
    (chat_messages_for_llm agent_data message llm_enhance_output
        knowledge_base_string chat_history).getLast? =
      some ⟨"user", enhance_user_message message llm_enhance_output⟩ ∧
    (⟨"system", agent_identity (agent_data.bind AgentData.agent_name) ++ core_instructions⟩ ∈
      (chat_messages_for_llm agent_data message llm_enhance_output
        knowledge_base_string chat_history).dropLast) ∧
    (∀ h ∈ chat_history,
      ChatMsg.mk (histRoleMapped h) (h.content.getD "") ∈
        (chat_messages_for_llm agent_data message llm_enhance_output
          knowledge_base_string chat_history).dropLast) ∧
    (knowledge_base_string ≠ "" →
      ⟨"user", kb_message_content knowledge_base_string⟩ ∈
        (chat_messages_for_llm agent_data message llm_enhance_output
          knowledge_base_string chat_history).dropLast) ∧
    (∀ sp, agent_data.bind AgentData.system_prompt = some sp → sp ≠ "" →
      ⟨"system", sp⟩ ∈
        (chat_messages_for_llm agent_data message llm_enhance_output
          knowledge_base_string chat_history).dropLast) := by
  unfold chat_messages_for_llm build_messages_list
  rw [show ∀ a b c d e : List ChatMsg, a ++ b ++ c ++ d ++ e = (a ++ b ++ c ++ d) ++ e by
    intro a b c d e; simp [List.append_assoc]]
  refine ⟨?_, ?_, ?_, ?_, ?_⟩
  · rw [List.getLast?_concat]
  · rw [List.dropLast_concat]
    simp
  · intro h hh
    rw [List.dropLast_concat]
    simp only [List.mem_append]
    refine Or.inl (Or.inr ?_)
    exact List.mem_map.mpr ⟨h, hh, rfl⟩
  · intro hkb
    rw [List.dropLast_concat]
    simp [if_neg hkb]
  · intro sp hsp hne
    rw [List.dropLast_concat]
    simp only [List.mem_append]
    refine Or.inl (Or.inl (Or.inr ?_))
    rw [hsp]
    simp [if_neg hne]

theorem chat_messages_end_with_enhanced_query_witness :
    ((chat_messages_for_llm none "hi" none "" []).getLast? = some ⟨"user", "hi"⟩) ∧
      ("kb" ≠ "" →
        ChatMsg.mk "user" (kb_message_content "kb") ∈
          (chat_messages_for_llm none "hi" none "kb" []).dropLast) :=
  ⟨(chat_messages_end_with_enhanced_query none "hi" none "" []).1,
    (chat_messages_end_with_enhanced_query none "hi" none "kb" []).2.2.2.1⟩

/-! ## Python dicts as insertion-ordered association lists -/

/-- `d.get(k)` / `k in d`. -/
def alistGet [DecidableEq κ] (k : κ) : List (κ × α) → Option α
  | [] => none
  | (k', v) :: l => if k' = k then some v else alistGet k l

/-- `d[k] = v`: replaces in place (CPython keeps the insertion position of an
existing key) or appends a new entry. -/
def alistInsert [DecidableEq κ] (k : κ) (v : α) : List (κ × α) → List (κ × α)
  | [] => [(k, v)]
  | (k', v') :: l => if k' = k then (k', v) :: l else (k', v') :: alistInsert k v l

theorem alistInsert_mem [DecidableEq κ] (k : κ) (v : α) :
    ∀ (m : List (κ × α)) (p : κ × α), p ∈ alistInsert k v m → p = (k, v) ∨ p ∈ m := by
  intro m
  induction m with
  | nil => intro p hp; simpa [alistInsert] using hp
  | cons q m ih =>
    intro p hp
    unfold alistInsert at hp
    split at hp
    · rcases List.mem_cons.mp hp with rfl | hp
      · next hk => left; rw [← hk]
      · right; exact List.mem_cons_of_mem _ hp
    · rcases List.mem_cons.mp hp with rfl | hp
      · right; exact List.mem_cons_self _ _
      · rcases ih p hp with h | h
        · left; exact h
        · right; exact List.mem_cons_of_mem _ h

theorem alistInsert_keys [DecidableEq κ] (k : κ) (v : α) :
    ∀ m : List (κ × α),
      (alistInsert k v m).map Prod.fst = m.map Prod.fst ∨
      (alistInsert k v m).map Prod.fst = m.map Prod.fst ++ [k] := by
  intro m
  induction m with
  | nil => right; simp [alistInsert]
  | cons q m ih =>
    unfold alistInsert
    split
    · left; simp
    · rcases ih with h | h
      · left; simp [h]
      · right; simp [h]

theorem alistInsert_keys_nodup [DecidableEq κ] (k : κ) (v : α) :
    ∀ m : List (κ × α), (m.map Prod.fst).Nodup →
      ((alistInsert k v m).map Prod.fst).Nodup := by
  intro m
  induction m with
  | nil => intro _; simp [alistInsert]
  | cons q m ih =>
    intro hm
    simp only [List.map_cons, List.nodup_cons] at hm
    unfold alistInsert
    split
    · simp only [List.map_cons, List.nodup_cons]
      exact hm
    · next hne =>
      simp only [List.map_cons, List.nodup_cons]
      refine ⟨?_, ih hm.2⟩
      intro hcon
      rcases alistInsert_keys k v m with h | h
      · rw [h] at hcon; exact hm.1 hcon
      · rw [h] at hcon
        rcases List.mem_append.mp hcon with hc | hc
        · exact hm.1 hc
        · simp only [List.mem_singleton] at hc
          exact hne hc

/-! ## 4.5 Retrieval merge — `atlas_query_qdrant_services.search_and_merge_agent_knowledge`

A Qdrant point payload, with `None` for absent dict keys. -/

structure KPayload where
  agent_id : Option String
  knowledge_source : Option String
  knowledge_type : Option String
  page_type : Option String
  summary : Option String
  product_name : Option String
  product_id : Option String
  category : Option String
  price : Option Int
  currency : Option String
  is_available : Option Bool
  text_index : Option Int
  text_content : Option String
  created_at : Option String
deriving DecidableEq

/-- One element of a Qdrant search response (`{id, score, payload}`); scores
are modelled as `Int` (only their order matters to the claims). -/
structure SearchResult where
  payload : Option KPayload
  score : Option Int
deriving DecidableEq

/-- A payload with its injected score (`payload["score"] = result.get("score", 0)`). -/
structure KItem where
  payload : KPayload
  score : Int
deriving DecidableEq

/-- Python truthiness of an optional string (`None` and `""` are falsy). -/
def truthyStr : Option String → Option String
  | some s => if s = "" then none else some s
  | none => none

/-- One step of the payload-extraction loops (lines 144–152, 190–206): skip
falsy entries and falsy payloads, inject the score with default 0. -/
def extractPayload1 (r? : Option SearchResult) : Option KItem :=
  match r? with
  | none => none
  | some r =>
    match r.payload with
    | none => none
    | some p => some (KItem.mk p (r.score.getD 0))

/-- The payload-extraction loops over a whole response. -/
def extractPayloads (results : List (Option SearchResult)) : List KItem :=
  results.filterMap extractPayload1

/-- The deduplication loop (lines 212–223): key `(knowledge_source,
text_index)`, keep the higher score; on an upgrade the previous item is removed
(`list.remove`, first equal element) and the new one appended. -/
def dedupLoop :
    List KItem → List ((Option String × Option Int) × KItem) → List KItem → List KItem
  | [], _, dedup => dedup
  | item :: rest, seen, dedup =>
    match alistGet (item.payload.knowledge_source, item.payload.text_index) seen with
    | none =>
      dedupLoop rest
        (alistInsert (item.payload.knowledge_source, item.payload.text_index) item seen)
        (dedup ++ [item])
    | some prev =>
      if prev.score < item.score then
        dedupLoop rest
          (alistInsert (item.payload.knowledge_source, item.payload.text_index) item seen)
          (dedup.erase prev ++ [item])
      else
        dedupLoop rest seen dedup

/-- A `knowledge_groups` entry (lines 226–248). -/
structure KGroup where
  agent_id : Option String
  knowledge_type : Option String
  page_type : Option String
  created_at : Option String
  max_score : Int
  text_contents : List (Option Int × String)
deriving DecidableEq

/-- The grouping loop (lines 226–248): group deduplicated items by truthy
`knowledge_source`; a new group records the first item's metadata and score,
an existing group takes the max score; the `(text_index, text)` entry is
appended in both cases. -/
def groupsLoop : List KItem → List (String × KGroup) → List (String × KGroup)
  | [], gs => gs
  | item :: rest, gs =>
    match truthyStr item.payload.knowledge_source with
    | none => groupsLoop rest gs
    | some ks =>
      match alistGet ks gs with
      | none =>
        groupsLoop rest (alistInsert ks
          { agent_id := item.payload.agent_id
            knowledge_type := item.payload.knowledge_type
            page_type := item.payload.page_type
            created_at := item.payload.created_at
            max_score := item.score
            text_contents := [(item.payload.text_index, item.payload.text_content.getD "")] }
          gs)
      | some g =>
        groupsLoop rest (alistInsert ks
          { g with
            max_score := max g.max_score item.score
            text_contents :=
              g.text_contents ++ [(item.payload.text_index, item.payload.text_content.getD "")] }
          gs)

/-- `f"[Chunk {t['text_index']}]"` — a missing index renders as `None`. -/
def chunkLabel (ti : Option Int) : String :=
  "[Chunk " ++ (match ti with | some n => toString n | none => "None") ++ "]"

/-- Python `sep.join l`. -/
def joinSep (sep : String) : List String → String
  | [] => ""
  | [s] => s
  | s :: rest => s ++ sep ++ joinSep sep rest

/-- Lines 253–257: sort the group's chunks by `text_index` (default 0),
drop falsy texts, label and join. -/
def combineTexts (texts : List (Option Int × String)) : String :=
  joinSep "\n\n"
    ((pySortStable (fun a b => decide (a.1.getD 0 ≤ b.1.getD 0)) texts).filterMap
      fun t => if t.2 = "" then none else some (chunkLabel t.1 ++ "\n" ++ t.2))

/-- A `merged_knowledge` entry (lines 259–267). -/
structure KbCard where
  agent_id : Option String
  knowledge_source : String
  knowledge_type : Option String
  page_type : Option String
  created_at : Option String
  score : Int
  text_content : String
deriving DecidableEq

/-- Lines 251–267: one knowledge-base card per group. -/
def mergedKnowledgeCards (gs : List (String × KGroup)) : List KbCard :=
  gs.map fun p =>
    { agent_id := p.2.agent_id
      knowledge_source := p.1
      knowledge_type := p.2.knowledge_type
      page_type := p.2.page_type
      created_at := p.2.created_at
      score := p.2.max_score
      text_content := combineTexts p.2.text_contents }

/-- A final merged source card (lines 276–291 / 304–319). -/
structure Card where
  knowledge_source : String
  agent_id : Option String
  page_type : Option String
  summary : Option String
  product_name : Option String
  product_id : Option String
  category : Option String
  price : Option Int
  currency : Option String
  is_available : Option Bool
  knowledge_type : Option String
  created_at : Option String
  score : Int
  text_content : Option String
deriving DecidableEq

/-- The catalog card built at lines 276–291 (`text_content = None`). -/
def catalogCard (ks : String) (it : KItem) : Card :=
  { knowledge_source := ks
    agent_id := it.payload.agent_id
    page_type := it.payload.page_type
    summary := it.payload.summary
    product_name := it.payload.product_name
    product_id := it.payload.product_id
    category := it.payload.category
    price := it.payload.price
    currency := it.payload.currency
    is_available := it.payload.is_available
    knowledge_type := it.payload.knowledge_type
    created_at := it.payload.created_at
    score := it.score
    text_content := none }

/-- The in-place update of lines 297–302: fill `text_content`, max the score. -/
def kbFilledCard (c : Card) (kb : KbCard) : Card :=
  { c with text_content := some kb.text_content, score := max c.score kb.score }

/-- The knowledge-base-only card of lines 304–319 (`summary = None` and every
catalog field `None`). -/
def kbFreshCard (kb : KbCard) : Card :=
  { knowledge_source := kb.knowledge_source
    agent_id := kb.agent_id
    page_type := kb.page_type
    summary := none
    product_name := none
    product_id := none
    category := none
    price := none
    currency := none
    is_available := none
    knowledge_type := kb.knowledge_type
    created_at := kb.created_at
    score := kb.score
    text_content := some kb.text_content }

/-- Lines 272–291: seed `final_merged` with the catalog cards. -/
def finalMergeCatalog : List KItem → List (String × Card) → List (String × Card)
  | [], fm => fm
  | it :: rest, fm =>
    match truthyStr it.payload.knowledge_source with
    | none => finalMergeCatalog rest fm
    | some ks => finalMergeCatalog rest (alistInsert ks (catalogCard ks it) fm)

/-- Lines 293–319: merge the knowledge-base cards into `final_merged`. -/
def finalMergeKb : List KbCard → List (String × Card) → List (String × Card)
  | [], fm => fm
  | kb :: rest, fm =>
    if kb.knowledge_source = "" then finalMergeKb rest fm
    else
      match alistGet kb.knowledge_source fm with
      | some c =>
        finalMergeKb rest (alistInsert kb.knowledge_source (kbFilledCard c kb) fm)
      | none =>
        finalMergeKb rest (alistInsert kb.knowledge_source (kbFreshCard kb) fm)

/-- The union searched at step 3/4: the source-biased search runs only when the
catalog produced truthy knowledge sources. -/
def allKnowledge (catalog_results source_kb_results direct_kb_results :
    List (Option SearchResult)) : List KItem :=
  (if (extractPayloads catalog_results).filterMap
      (fun it => truthyStr it.payload.knowledge_source) = [] then []
   else extractPayloads source_kb_results)
  ++ extractPayloads direct_kb_results

/-- `search_and_merge_agent_knowledge` (lines 122–328), as a function of the
three search responses (the embedding call and the Qdrant searches themselves
are the oracle inputs): extract, deduplicate, group, merge catalog and
knowledge-base cards by `knowledge_source`, and sort by score descending
(stable). -/
def search_and_merge_agent_knowledge
    (catalog_results source_kb_results direct_kb_results : List (Option SearchResult)) :
    List Card :=
  pySortStable (fun a b => decide (b.score ≤ a.score))
    ((finalMergeKb
        (mergedKnowledgeCards
          (groupsLoop (dedupLoop
            (allKnowledge catalog_results source_kb_results direct_kb_results) [] []) []))
        (finalMergeCatalog (extractPayloads catalog_results) [])).map Prod.snd)

/-- The `knowledge_source` values occurring among the catalog search results. -/
def catSourcesList (cr : List (Option SearchResult)) : List String :=
  (extractPayloads cr).filterMap fun it => it.payload.knowledge_source

/-- The `knowledge_source` values occurring among the two knowledge-base
search results. -/
def kbSourcesList (skr dkr : List (Option SearchResult)) : List String :=
  (extractPayloads skr ++ extractPayloads dkr).filterMap fun it =>
    it.payload.knowledge_source

/-! ### Structural lemmas about the merge -/

theorem alistGet_mem [DecidableEq κ] (k : κ) (v : α) :
    ∀ m : List (κ × α), alistGet k m = some v → (k, v) ∈ m := by
  intro m
  induction m with
  | nil => intro h; simp [alistGet] at h
  | cons q m ih =>
    intro h
    unfold alistGet at h
    split at h
    · next hk =>
      simp only [Option.some.injEq] at h
      subst hk
      subst h
      exact List.mem_cons_self _ _
    · exact List.mem_cons_of_mem _ (ih h)

theorem truthyStr_eq_some (o : Option String) (s : String) :
    truthyStr o = some s → o = some s := by
  cases o with
  | none => intro h; simp [truthyStr] at h
  | some t =>
    intro h
    by_cases ht : t = ""
    · simp [truthyStr, ht] at h
    · simp only [truthyStr, if_neg ht, Option.some.injEq] at h
      rw [h]

theorem extractPayloads_mem (rs : List (Option SearchResult)) (it : KItem) :
    it ∈ extractPayloads rs →
      ∃ r? ∈ rs, ∃ r : SearchResult, r? = some r ∧ r.payload = some it.payload := by
  intro h
  rcases List.mem_filterMap.mp h with ⟨r?, hr, hf⟩
  cases r? with
  | none => simp [extractPayload1] at hf
  | some r =>
    cases hp : r.payload with
    | none => simp [extractPayload1, hp] at hf
    | some p =>
      simp only [extractPayload1, hp, Option.some.injEq] at hf
      exact ⟨some r, hr, r, rfl, by rw [hp, ← hf]⟩

theorem dedupLoop_mem :
    ∀ (items : List KItem) (seen : List ((Option String × Option Int) × KItem))
      (dedup : List KItem) (x : KItem),
      x ∈ dedupLoop items seen dedup → x ∈ dedup ∨ x ∈ items := by
  intro items
  induction items with
  | nil => intro seen dedup x h; left; simpa [dedupLoop] using h
  | cons item rest ih =>
    intro seen dedup x h
    unfold dedupLoop at h
    split at h
    · rcases ih _ _ x h with hx | hx
      · rcases List.mem_append.mp hx with hx | hx
        · left; exact hx
        · right
          simp only [List.mem_singleton] at hx
          subst hx
          exact List.mem_cons_self _ _
      · right; exact List.mem_cons_of_mem _ hx
    · split at h
      · rcases ih _ _ x h with hx | hx
        · rcases List.mem_append.mp hx with hx | hx
          · left; exact List.mem_of_mem_erase hx
          · right
            simp only [List.mem_singleton] at hx
            subst hx
            exact List.mem_cons_self _ _
        · right; exact List.mem_cons_of_mem _ hx
      · rcases ih _ _ x h with hx | hx
        · left; exact hx
        · right; exact List.mem_cons_of_mem _ hx

theorem groupsLoop_key_mem :
    ∀ (items : List KItem) (gs : List (String × KGroup)) (p : String × KGroup),
      p ∈ groupsLoop items gs →
      p ∈ gs ∨ ∃ it ∈ items, truthyStr it.payload.knowledge_source = some p.1 := by
  intro items
  induction items with
  | nil => intro gs p h; left; simpa [groupsLoop] using h
  | cons item rest ih =>
    intro gs p h
    unfold groupsLoop at h
    split at h
    · rcases ih _ p h with hp | ⟨it, hit, hts⟩
      · left; exact hp
      · right; exact ⟨it, List.mem_cons_of_mem _ hit, hts⟩
    · next ks hks =>
      split at h
      all_goals
        rcases ih _ p h with hp | ⟨it, hit, hts⟩
        · rcases alistInsert_mem _ _ _ p hp with rfl | hp
          · right; exact ⟨item, List.mem_cons_self _ _, hks⟩
          · left; exact hp
        · right; exact ⟨it, List.mem_cons_of_mem _ hit, hts⟩

theorem finalMergeCatalog_keys_nodup :
    ∀ (items : List KItem) (fm : List (String × Card)),
      (fm.map Prod.fst).Nodup → ((finalMergeCatalog items fm).map Prod.fst).Nodup := by
  intro items
  induction items with
  | nil => intro fm h; simpa [finalMergeCatalog] using h
  | cons it rest ih =>
    intro fm h
    unfold finalMergeCatalog
    split
    · exact ih fm h
    · exact ih _ (alistInsert_keys_nodup _ _ fm h)

theorem finalMergeKb_keys_nodup :
    ∀ (kbs : List KbCard) (fm : List (String × Card)),
      (fm.map Prod.fst).Nodup → ((finalMergeKb kbs fm).map Prod.fst).Nodup := by
  intro kbs
  induction kbs with
  | nil => intro fm h; simpa [finalMergeKb] using h
  | cons kb rest ih =>
    intro fm h
    unfold finalMergeKb
    split
    · exact ih fm h
    · split
      · exact ih _ (alistInsert_keys_nodup _ _ fm h)
      · exact ih _ (alistInsert_keys_nodup _ _ fm h)

/-- Every entry of `final_merged` carries its own key as `knowledge_source`
and satisfies the catalog-only / knowledge-base-only field discipline. -/
def C4Inv (catS kbS : List String) (fm : List (String × Card)) : Prop :=
  ∀ p ∈ fm, (p.2).knowledge_source = p.1 ∧
    (p.1 ∉ kbS → p.2.summary ≠ none ∧ p.2.text_content = none) ∧
    (p.1 ∉ catS → p.2.summary = none ∧ p.2.text_content ≠ none)

theorem finalMergeCatalog_c4inv (catS kbS : List String) :
    ∀ (items : List KItem) (fm : List (String × Card)),
      (∀ it ∈ items, it.payload.summary ≠ none ∧
        ∀ ks, truthyStr it.payload.knowledge_source = some ks → ks ∈ catS) →
      C4Inv catS kbS fm → C4Inv catS kbS (finalMergeCatalog items fm) := by
  intro items
  induction items with
  | nil => intro fm _ h; simpa [finalMergeCatalog] using h
  | cons it rest ih =>
    intro fm hitems hfm
    unfold finalMergeCatalog
    split
    · exact ih fm (fun x hx => hitems x (List.mem_cons_of_mem _ hx)) hfm
    · next ks hks =>
      refine ih _ (fun x hx => hitems x (List.mem_cons_of_mem _ hx)) ?_
      intro p hp
      rcases alistInsert_mem _ _ _ p hp with rfl | hp
      · have hit := hitems it (List.mem_cons_self _ _)
        refine ⟨rfl, fun _ => ⟨hit.1, rfl⟩, fun hnot => absurd (hit.2 ks hks) hnot⟩
      · exact hfm p hp

theorem finalMergeKb_c4inv (catS kbS : List String) :
    ∀ (kbs : List KbCard) (fm : List (String × Card)),
      (∀ kb ∈ kbs, kb.knowledge_source ∈ kbS) →
      C4Inv catS kbS fm → C4Inv catS kbS (finalMergeKb kbs fm) := by
  intro kbs
  induction kbs with
  | nil => intro fm _ h; simpa [finalMergeKb] using h
  | cons kb rest ih =>
    intro fm hkbs hfm
    unfold finalMergeKb
    split
    · exact ih fm (fun x hx => hkbs x (List.mem_cons_of_mem _ hx)) hfm
    · split
      · next c hc =>
        refine ih _ (fun x hx => hkbs x (List.mem_cons_of_mem _ hx)) ?_
        intro p hp
        rcases alistInsert_mem _ _ _ p hp with rfl | hp
        · have hcfm := hfm _ (alistGet_mem kb.knowledge_source c fm hc)
          refine ⟨hcfm.1, ?_, ?_⟩
          · intro hnot
            exact absurd (hkbs kb (List.mem_cons_self _ _)) hnot
          · intro hnot
            exact ⟨(hcfm.2.2 hnot).1, by simp [kbFilledCard]⟩
        · exact hfm p hp
      · refine ih _ (fun x hx => hkbs x (List.mem_cons_of_mem _ hx)) ?_
        intro p hp
        rcases alistInsert_mem _ _ _ p hp with rfl | hp
        · refine ⟨rfl, ?_, ?_⟩
          · intro hnot
            exact absurd (hkbs kb (List.mem_cons_self _ _)) hnot
          · intro _
            exact ⟨rfl, by simp [kbFreshCard]⟩
        · exact hfm p hp

theorem mergedKnowledgeCards_sources
    (cr skr dkr : List (Option SearchResult)) :
    ∀ kb ∈ mergedKnowledgeCards
        (groupsLoop (dedupLoop (allKnowledge cr skr dkr) [] []) []),
      kb.knowledge_source ∈ kbSourcesList skr dkr := by
  intro kb hkb
  rcases List.mem_map.mp hkb with ⟨p, hp, rfl⟩
  rcases groupsLoop_key_mem _ [] p hp with h | ⟨it, hit, hts⟩
  · simp at h
  · rcases dedupLoop_mem _ [] [] it hit with h | h
    · simp at h
    · have hmem : it ∈ extractPayloads skr ++ extractPayloads dkr := by
        unfold allKnowledge at h
        rcases List.mem_append.mp h with h | h
        · split at h
          · simp at h
          · exact List.mem_append.mpr (Or.inl h)
        · exact List.mem_append.mpr (Or.inr h)
      exact List.mem_filterMap.mpr ⟨it, hmem, truthyStr_eq_some _ _ hts⟩

/-- The key of every `final_merged` entry is its card's `knowledge_source`. -/
def KeyCorr (fm : List (String × Card)) : Prop :=
  ∀ p ∈ fm, (p.2).knowledge_source = p.1

theorem finalMergeCatalog_keycorr :
    ∀ (items : List KItem) (fm : List (String × Card)),
      KeyCorr fm → KeyCorr (finalMergeCatalog items fm) := by
  intro items
  induction items with
  | nil => intro fm h; simpa [finalMergeCatalog] using h
  | cons it rest ih =>
    intro fm hfm
    unfold finalMergeCatalog
    split
    · exact ih fm hfm
    · refine ih _ ?_
      intro p hp
      rcases alistInsert_mem _ _ _ p hp with rfl | hp
      · rfl
      · exact hfm p hp

theorem finalMergeKb_keycorr :
    ∀ (kbs : List KbCard) (fm : List (String × Card)),
      KeyCorr fm → KeyCorr (finalMergeKb kbs fm) := by
  intro kbs
  induction kbs with
  | nil => intro fm h; simpa [finalMergeKb] using h
  | cons kb rest ih =>
    intro fm hfm
    unfold finalMergeKb
    split
    · exact ih fm hfm
    · split
      · next c hc =>
        refine ih _ ?_
        intro p hp
        rcases alistInsert_mem _ _ _ p hp with rfl | hp
        · have hck := hfm (kb.knowledge_source, c)
            (alistGet_mem kb.knowledge_source c fm hc)
          simpa [kbFilledCard] using hck
        · exact hfm p hp
      · refine ih _ ?_
        intro p hp
        rcases alistInsert_mem _ _ _ p hp with rfl | hp
        · rfl
        · exact hfm p hp

/-- C3: for every catalog and knowledge-base search result lists, no two cards
in the merged list share a `knowledge_source`: `final_merged` is a dict keyed
by `knowledge_source`, every stored card carries its key, and the final sort
only permutes the values. -/
theorem search_and_merge_no_duplicate_sources
    (catalog_results source_kb_results direct_kb_results : List (Option SearchResult)) :
    List.Pairwise (fun a b : Card => a.knowledge_source ≠ b.knowledge_source)
      (search_and_merge_agent_knowledge catalog_results source_kb_results
        direct_kb_results) := by
  unfold search_and_merge_agent_knowledge
  have hnodup : ((finalMergeKb
      (mergedKnowledgeCards (groupsLoop (dedupLoop
        (allKnowledge catalog_results source_kb_results direct_kb_results) [] []) []))
      (finalMergeCatalog (extractPayloads catalog_results) [])).map Prod.fst).Nodup :=
    finalMergeKb_keys_nodup _ _ (finalMergeCatalog_keys_nodup _ [] (by simp))
  have hcorr : KeyCorr (finalMergeKb
      (mergedKnowledgeCards (groupsLoop (dedupLoop
        (allKnowledge catalog_results source_kb_results direct_kb_results) [] []) []))
      (finalMergeCatalog (extractPayloads catalog_results) [])) :=
    finalMergeKb_keycorr _ _ (finalMergeCatalog_keycorr _ []
      (fun p hp => absurd hp (List.not_mem_nil p)))
  have hp1 : List.Pairwise (fun p q : String × Card => p.1 ≠ q.1) _ :=
    List.pairwise_map.mp hnodup
  have hp2 : List.Pairwise
      (fun p q : String × Card => p.2.knowledge_source ≠ q.2.knowledge_source) _ :=
    hp1.imp_of_mem (fun ha hb hne => by
      rw [hcorr _ ha, hcorr _ hb]; exact hne)
  have hp3 : List.Pairwise (fun a b : Card => a.knowledge_source ≠ b.knowledge_source)
      ((finalMergeKb
        (mergedKnowledgeCards (groupsLoop (dedupLoop
          (allKnowledge catalog_results source_kb_results direct_kb_results) [] []) []))
        (finalMergeCatalog (extractPayloads catalog_results) [])).map Prod.snd) :=
    List.pairwise_map.mpr hp2
  have hperm := pySortStable_perm (fun a b : Card => decide (b.score ≤ a.score))
    ((finalMergeKb
      (mergedKnowledgeCards (groupsLoop (dedupLoop
        (allKnowledge catalog_results source_kb_results direct_kb_results) [] []) []))
      (finalMergeCatalog (extractPayloads catalog_results) [])).map Prod.snd)
  exact (List.Perm.pairwise_iff (fun h hba => h hba.symm) hperm).mpr hp3

/-- C4: a card whose `knowledge_source` appears only among the catalog search
results has a non-null `summary` (given that catalog payloads carry one — the
catalog indexer only creates points with a truthy `summary`, lines 284/317 of
`atlas_qdrant_services.py`) and a null `text_content`; a card whose source
appears only among the knowledge-base search results has a null `summary` and
a non-null `text_content`. -/
theorem search_and_merge_catalog_kb_fields
    (catalog_results source_kb_results direct_kb_results : List (Option SearchResult))
    (hsum : ∀ r? ∈ catalog_results, ∀ r : SearchResult, r? = some r →
      ∀ p : KPayload, r.payload = some p → p.summary ≠ none) :
    ∀ c ∈ search_and_merge_agent_knowledge catalog_results source_kb_results
        direct_kb_results,
      (c.knowledge_source ∉ kbSourcesList source_kb_results direct_kb_results →
        c.summary ≠ none ∧ c.text_content = none) ∧
      (c.knowledge_source ∉ catSourcesList catalog_results →
        c.summary = none ∧ c.text_content ≠ none) := by
  intro c hc
  unfold search_and_merge_agent_knowledge at hc
  have hperm := pySortStable_perm (fun a b : Card => decide (b.score ≤ a.score))
    ((finalMergeKb
      (mergedKnowledgeCards (groupsLoop (dedupLoop
        (allKnowledge catalog_results source_kb_results direct_kb_results) [] []) []))
      (finalMergeCatalog (extractPayloads catalog_results) [])).map Prod.snd)
  have hc' := hperm.mem_iff.mp hc
  rcases List.mem_map.mp hc' with ⟨p, hp, rfl⟩
  have hitems : ∀ it ∈ extractPayloads catalog_results, it.payload.summary ≠ none ∧
      ∀ ks, truthyStr it.payload.knowledge_source = some ks →
        ks ∈ catSourcesList catalog_results := by
    intro it hit
    constructor
    · rcases extractPayloads_mem _ it hit with ⟨r?, hr, r, rfl, hpay⟩
      exact hsum (some r) hr r rfl it.payload hpay
    · intro ks hks
      exact List.mem_filterMap.mpr ⟨it, hit, truthyStr_eq_some _ _ hks⟩
  have hinv := finalMergeKb_c4inv (catSourcesList catalog_results)
    (kbSourcesList source_kb_results direct_kb_results) _ _
    (mergedKnowledgeCards_sources catalog_results source_kb_results direct_kb_results)
    (finalMergeCatalog_c4inv _ _ _ [] hitems
      (fun q hq => absurd hq (List.not_mem_nil q)))
  have h := hinv p hp
  rw [h.1]
  exact ⟨h.2.1, h.2.2⟩

/-- A concrete catalog search payload used to witness the merge theorems. -/
def witCatalogPayload : KPayload :=
  { agent_id := some "a", knowledge_source := some "u1", knowledge_type := some "url",
    page_type := some "content", summary := some "s", product_name := none,
    product_id := none, category := none, price := none, currency := none,
    is_available := none, text_index := none, text_content := none, created_at := none }

/-- A concrete knowledge-base search payload used to witness the merge
theorems. -/
def witKbPayload : KPayload :=
  { agent_id := some "a", knowledge_source := some "u2", knowledge_type := some "url",
    page_type := some "content", summary := none, product_name := none,
    product_id := none, category := none, price := none, currency := none,
    is_available := none, text_index := none, text_content := some "t", created_at := none }

/-- The knowledge-base-only card produced by the witness inputs. -/
def witKbOnlyCard : Card :=
  { knowledge_source := "u2", agent_id := some "a", page_type := some "content",
    summary := none, product_name := none, product_id := none, category := none,
    price := none, currency := none, is_available := none,
    knowledge_type := some "url", created_at := none, score := 3,
    text_content := some "[Chunk None]\nt" }

theorem search_and_merge_catalog_kb_fields_witness :
    witKbOnlyCard.summary = none ∧ witKbOnlyCard.text_content ≠ none :=
  (search_and_merge_catalog_kb_fields
      [some ⟨some witCatalogPayload, some 5⟩] [] [some ⟨some witKbPayload, some 3⟩]
      (by decide) witKbOnlyCard (by decide)).2 (by decide)

/-! ## 4.4 Indexer — `atlas_qdrant_services.index_links_in_knowledge_base` /
`index_files_in_knowledge_base`

The payload of an `agent_knowledge_base` chunk point. -/

structure ChunkPayload where
  agent_id : String
  knowledge_source : String
  text_index : Nat
  text_content : String
  knowledge_type : String
  page_type : Option String
  created_at : String
deriving DecidableEq

/-- A Qdrant point (`PointStruct`); the embedding vector is irrelevant to the
claims and is elided. -/
structure QPoint where
  id : String
  payload : ChunkPayload
deriving DecidableEq

/-- The link delete filter (lines 155–160): `agent_id` and `knowledge_source`. -/
def linkFilterMatches (agent_id ks : String) (p : QPoint) : Bool :=
  p.payload.agent_id = agent_id && p.payload.knowledge_source = ks

/-- The file delete filter (lines 493–499): `agent_id`, `knowledge_source` and
`knowledge_type = "file"` (to avoid cross-type deletions). -/
def fileFilterMatches (agent_id ks : String) (p : QPoint) : Bool :=
  p.payload.agent_id = agent_id && p.payload.knowledge_source = ks &&
    p.payload.knowledge_type = "file"

/-- The per-source filter-delete loop (lines 217–228 / 557–568): one
filter-delete per recorded source, in order. -/
def deleteBySources (fm : String → QPoint → Bool) (sources : List String)
    (store : List QPoint) : List QPoint :=
  sources.foldl (fun st ks => st.filter fun p => !(fm ks p)) store

/-- Qdrant `upsert`: each point replaces the stored point with its id if one
exists, else is appended. -/
def qdrantUpsert (points : List QPoint) (store : List QPoint) : List QPoint :=
  points.foldl
    (fun st p =>
      if st.any (fun q => q.id = p.id) then st.map fun q => if q.id = p.id then p else q
      else st ++ [p])
    store

/-- One entry of `metadata_results` as read by `index_links_in_knowledge_base`
(lines 106–114). -/
structure LinkInput where
  normalized_url : Option String
  text_content : Option String
  page_type : Option String
deriving DecidableEq

/-- `valid_results` (lines 106–114) followed by chunking (lines 143–152):
sources with truthy url and text whose chunk list is non-empty, with their
chunks and `page_type` (default `"unknown"`). -/
def linkSources (inputs : List (Option LinkInput)) :
    List (String × List String × String) :=
  inputs.filterMap fun r? =>
    r?.bind fun r =>
      match truthyStr r.text_content, truthyStr r.normalized_url with
      | some txt, some url =>
        match chunk_text_content txt 1500 200 with
        | [] => none
        | chunks => some (url, chunks, r.page_type.getD "unknown")
      | _, _ => none

/-- The sources for which a delete filter is recorded (lines 154–161). -/
def linkDeleteSources (inputs : List (Option LinkInput)) : List String :=
  (linkSources inputs).map (·.1)

/-- The point set built at lines 192–209: one point per chunk, per-source
`text_index`, `knowledge_type = "url"`, and a random uuid4 id modelled by the
supply `idGen` indexed by the global chunk position. -/
def linkPoints (agent_id : String) (inputs : List (Option LinkInput))
    (idGen : Nat → String) (current_time : String) : List QPoint :=
  (((linkSources inputs).map fun s =>
      s.2.1.enum.map fun ic =>
        ChunkPayload.mk agent_id s.1 ic.1 ic.2 "url" (some s.2.2) current_time).flatten).enum.map
    fun ip => QPoint.mk (idGen ip.1) ip.2

/-- `index_links_in_knowledge_base` (lines 85–255), success path: chunk the
valid sources, delete every prior point of each `(agent_id, knowledge_source)`
and then upsert the new points in one batch. -/
def index_links_in_knowledge_base (agent_id : String)
    (inputs : List (Option LinkInput)) (idGen : Nat → String)
    (current_time : String) (store : List QPoint) : List QPoint :=
  qdrantUpsert (linkPoints agent_id inputs idGen current_time)
    (deleteBySources (linkFilterMatches agent_id) (linkDeleteSources inputs) store)

/-- One entry of `files_data` as read by `index_files_in_knowledge_base`
(lines 450–453). -/
structure FileInput where
  file_name : Option String
  text : Option String
deriving DecidableEq

/-- One entry of `valid_files` plus chunking (lines 450–489). -/
def fileSource1 (r? : Option FileInput) : Option (String × List String) :=
  r?.bind fun r =>
    match truthyStr r.text, truthyStr r.file_name with
    | some txt, some name =>
      match chunk_text_content txt 1500 200 with
      | [] => none
      | chunks => some (name, chunks)
    | _, _ => none

/-- `valid_files` plus chunking over the whole batch. -/
def fileSources (inputs : List (Option FileInput)) : List (String × List String) :=
  inputs.filterMap fileSource1

/-- The point set built at lines 530–549: deterministic ids
`uuid5(agent_id:file:knowledge_source:text_index)`, modelled by the injective
supply `fileId` of the `(knowledge_source, text_index)` key. -/
def filePoints (agent_id : String) (inputs : List (Option FileInput))
    (fileId : String → Nat → String) (current_time : String) : List QPoint :=
  ((fileSources inputs).map fun s =>
    s.2.enum.map fun ic =>
      QPoint.mk (fileId s.1 ic.1)
        (ChunkPayload.mk agent_id s.1 ic.1 ic.2 "file" none current_time)).flatten

/-- `index_files_in_knowledge_base` (lines 429–595), success path. -/
def index_files_in_knowledge_base (agent_id : String)
    (inputs : List (Option FileInput)) (fileId : String → Nat → String)
    (current_time : String) (store : List QPoint) : List QPoint :=
  qdrantUpsert (filePoints agent_id inputs fileId current_time)
    (deleteBySources (fileFilterMatches agent_id) ((fileSources inputs).map (·.1)) store)

/-! ### Delete-then-upsert laws -/

theorem deleteBySources_sublist (fm : String → QPoint → Bool) :
    ∀ (sources : List String) (store : List QPoint),
      List.Sublist (deleteBySources fm sources store) store := by
  intro sources
  induction sources with
  | nil => intro store; simp [deleteBySources]
  | cons s rest ih =>
    intro store
    have h1 : deleteBySources fm (s :: rest) store =
        deleteBySources fm rest (store.filter fun p => !(fm s p)) := rfl
    rw [h1]
    exact (ih _).trans (List.filter_sublist _)

theorem deleteBySources_filter_nil (fm : String → QPoint → Bool) :
    ∀ (sources : List String) (store : List QPoint) (ks : String), ks ∈ sources →
      (deleteBySources fm sources store).filter (fm ks) = [] := by
  intro sources
  induction sources with
  | nil => intro store ks h; simp at h
  | cons s rest ih =>
    intro store ks h
    have h1 : deleteBySources fm (s :: rest) store =
        deleteBySources fm rest (store.filter fun p => !(fm s p)) := rfl
    rw [h1]
    rcases List.mem_cons.mp h with rfl | h
    · have hsub := (deleteBySources_sublist fm rest
          (store.filter fun p => !(fm ks p))).filter (fm ks)
      have hnil : (store.filter fun p => !(fm ks p)).filter (fm ks) = [] := by
        rw [List.filter_filter]
        apply List.filter_eq_nil_iff.mpr
        intro p _
        simp
      rw [hnil] at hsub
      exact List.sublist_nil.mp hsub
    · exact ih _ ks h

theorem qdrantUpsert_mem :
    ∀ (pts store : List QPoint) (p : QPoint),
      p ∈ qdrantUpsert pts store → p ∈ store ∨ p ∈ pts := by
  intro pts
  induction pts with
  | nil => intro store p h; left; simpa [qdrantUpsert] using h
  | cons q rest ih =>
    intro store p h
    have h1 : qdrantUpsert (q :: rest) store = qdrantUpsert rest
        (if store.any (fun r => r.id = q.id) then
          store.map fun r => if r.id = q.id then q else r
        else store ++ [q]) := rfl
    rw [h1] at h
    rcases ih _ p h with hp | hp
    · split at hp
      · rcases List.mem_map.mp hp with ⟨r, hr, hrq⟩
        by_cases hid : r.id = q.id
        · right
          rw [if_pos hid] at hrq
          rw [← hrq]
          exact List.mem_cons_self _ _
        · left
          rw [if_neg hid] at hrq
          rw [← hrq]
          exact hr
      · rcases List.mem_append.mp hp with hp | hp
        · left; exact hp
        · right
          simp only [List.mem_singleton] at hp
          rw [hp]
          exact List.mem_cons_self _ _
    · right; exact List.mem_cons_of_mem _ hp

theorem qdrantUpsert_append :
    ∀ (pts store : List QPoint),
      (∀ p ∈ pts, ∀ q ∈ store, q.id ≠ p.id) → (pts.map QPoint.id).Nodup →
      qdrantUpsert pts store = store ++ pts := by
  intro pts
  induction pts with
  | nil => intro store _ _; simp [qdrantUpsert]
  | cons q rest ih =>
    intro store hfresh hnodup
    have hany : store.any (fun r => r.id = q.id) = false := by
      apply List.any_eq_false.mpr
      intro r hr
      simpa using hfresh q (List.mem_cons_self _ _) r hr
    have h1 : qdrantUpsert (q :: rest) store = qdrantUpsert rest (store ++ [q]) := by
      have : qdrantUpsert (q :: rest) store = qdrantUpsert rest
          (if store.any (fun r => r.id = q.id) then
            store.map fun r => if r.id = q.id then q else r
          else store ++ [q]) := rfl
      rw [this, hany]
      simp
    rw [h1]
    simp only [List.map_cons, List.nodup_cons] at hnodup
    have hfresh' : ∀ p ∈ rest, ∀ r ∈ store ++ [q], r.id ≠ p.id := by
      intro p hp r hr
      rcases List.mem_append.mp hr with hr | hr
      · exact hfresh p (List.mem_cons_of_mem _ hp) r hr
      · simp only [List.mem_singleton] at hr
        rw [hr]
        intro hqp
        exact hnodup.1 (hqp ▸ List.mem_map_of_mem QPoint.id hp)
    rw [ih _ hfresh' hnodup.2]
    simp

theorem linkPoints_ids_nodup (agent_id : String) (inputs : List (Option LinkInput))
    (idGen : Nat → String) (t : String) (hinj : Function.Injective idGen) :
    ((linkPoints agent_id inputs idGen t).map QPoint.id).Nodup := by
  unfold linkPoints
  rw [List.map_map]
  have : (QPoint.id ∘ fun ip : Nat × ChunkPayload => QPoint.mk (idGen ip.1) ip.2) =
      (idGen ∘ Prod.fst) := rfl
  rw [this, ← List.map_map]
  rw [List.enum_map_fst]
  exact (List.nodup_range _).map hinj

theorem linkPoints_id_range (agent_id : String) (inputs : List (Option LinkInput))
    (idGen : Nat → String) (t : String) :
    ∀ p ∈ linkPoints agent_id inputs idGen t, ∃ i, p.id = idGen i := by
  intro p hp
  unfold linkPoints at hp
  rcases List.mem_map.mp hp with ⟨ip, _, rfl⟩
  exact ⟨ip.1, rfl⟩

/-- The heart of C2 for URL sources: after any run of
`index_links_in_knowledge_base`, the `(agent_id, knowledge_source)` slice of
the store is exactly the run's fresh point set — independently of whatever the
store held before (delete-then-upsert). -/
theorem index_links_filter (agent_id : String) (inputs : List (Option LinkInput))
    (idGen : Nat → String) (t : String) (store : List QPoint) (ks : String)
    (hinj : Function.Injective idGen)
    (hfresh : ∀ i, ∀ p ∈ store, p.id ≠ idGen i)
    (hks : ks ∈ linkDeleteSources inputs) :
    (index_links_in_knowledge_base agent_id inputs idGen t store).filter
        (linkFilterMatches agent_id ks) =
      (linkPoints agent_id inputs idGen t).filter (linkFilterMatches agent_id ks) := by
  unfold index_links_in_knowledge_base
  have hsub := deleteBySources_sublist (linkFilterMatches agent_id)
    (linkDeleteSources inputs) store
  have hfresh' : ∀ p ∈ linkPoints agent_id inputs idGen t,
      ∀ q ∈ deleteBySources (linkFilterMatches agent_id) (linkDeleteSources inputs) store,
        q.id ≠ p.id := by
    intro p hp q hq
    rcases linkPoints_id_range agent_id inputs idGen t p hp with ⟨i, hi⟩
    rw [hi]
    exact hfresh i q (hsub.mem hq)
  rw [qdrantUpsert_append _ _ hfresh'
    (linkPoints_ids_nodup agent_id inputs idGen t hinj)]
  rw [List.filter_append,
    deleteBySources_filter_nil (linkFilterMatches agent_id) _ store ks hks]
  simp

theorem index_links_mem (agent_id : String) (inputs : List (Option LinkInput))
    (idGen : Nat → String) (t : String) (store : List QPoint) (p : QPoint)
    (hp : p ∈ index_links_in_knowledge_base agent_id inputs idGen t store) :
    p ∈ store ∨ p ∈ linkPoints agent_id inputs idGen t := by
  unfold index_links_in_knowledge_base at hp
  rcases qdrantUpsert_mem _ _ p hp with h | h
  · left
    exact (deleteBySources_sublist (linkFilterMatches agent_id)
      (linkDeleteSources inputs) store).mem h
  · right; exact h

theorem fileSources_single (inp : Option FileInput) (ks : String)
    (hks : ks ∈ (fileSources [inp]).map Prod.fst) :
    ∃ chunks, fileSources [inp] = [(ks, chunks)] := by
  unfold fileSources at *
  rcases hf : fileSource1 inp with _ | nc
  · rw [List.filterMap_cons, hf] at hks
    simp at hks
  · rw [List.filterMap_cons, hf] at hks ⊢
    simp only [List.filterMap_nil, List.map_cons, List.map_nil,
      List.mem_singleton] at hks
    rcases nc with ⟨name, chunks⟩
    simp only at hks
    subst hks
    exact ⟨chunks, rfl⟩

theorem index_files_mem (agent_id : String) (inputs : List (Option FileInput))
    (fileId : String → Nat → String) (t : String) (store : List QPoint) (p : QPoint)
    (hp : p ∈ index_files_in_knowledge_base agent_id inputs fileId t store) :
    p ∈ store ∨ p ∈ filePoints agent_id inputs fileId t := by
  unfold index_files_in_knowledge_base at hp
  rcases qdrantUpsert_mem _ _ p hp with h | h
  · left
    exact (deleteBySources_sublist (fileFilterMatches agent_id)
      ((fileSources inputs).map (·.1)) store).mem h
  · right; exact h

theorem filePoints_single_char (agent_id : String) (inp : Option FileInput)
    (fileId : String → Nat → String) (t ks : String) (chunks : List String)
    (hfs : fileSources [inp] = [(ks, chunks)]) :
    filePoints agent_id [inp] fileId t =
      chunks.enum.map fun ic =>
        QPoint.mk (fileId ks ic.1)
          (ChunkPayload.mk agent_id ks ic.1 ic.2 "file" none t) := by
  unfold filePoints
  rw [hfs]
  simp

/-- The heart of C2 for file sources (single-file batch, the claim's
re-indexing scenario): after a run of `index_files_in_knowledge_base`, the
`(agent_id, knowledge_source, "file")` slice of the store is exactly the run's
fresh point set, for any prior store in which every point carrying a reserved
deterministic id already matches that filter. -/
theorem index_files_filter_single (agent_id : String) (inp : Option FileInput)
    (fileId : String → Nat → String) (t : String) (store : List QPoint) (ks : String)
    (hinj : ∀ ks₁ i₁ ks₂ i₂, fileId ks₁ i₁ = fileId ks₂ i₂ → ks₁ = ks₂ ∧ i₁ = i₂)
    (hresv : ∀ p ∈ store, ∀ ks' i, p.id = fileId ks' i →
      fileFilterMatches agent_id ks p = true)
    (hks : ks ∈ (fileSources [inp]).map Prod.fst) :
    (index_files_in_knowledge_base agent_id [inp] fileId t store).filter
        (fileFilterMatches agent_id ks) =
      (filePoints agent_id [inp] fileId t).filter (fileFilterMatches agent_id ks) := by
  rcases fileSources_single inp ks hks with ⟨chunks, hfs⟩
  have hpts := filePoints_single_char agent_id inp fileId t ks chunks hfs
  unfold index_files_in_knowledge_base
  have hidr : ∀ p ∈ filePoints agent_id [inp] fileId t, ∃ i, p.id = fileId ks i := by
    intro p hp
    rw [hpts] at hp
    rcases List.mem_map.mp hp with ⟨ic, _, rfl⟩
    exact ⟨ic.1, rfl⟩
  have hfresh' : ∀ p ∈ filePoints agent_id [inp] fileId t,
      ∀ q ∈ deleteBySources (fileFilterMatches agent_id)
        ((fileSources [inp]).map (·.1)) store, q.id ≠ p.id := by
    intro p hp q hq
    rcases hidr p hp with ⟨i, hi⟩
    rw [hi]
    rw [hfs] at hq
    have hq1 : q ∈ store.filter fun r => !(fileFilterMatches agent_id ks r) := hq
    rcases List.mem_filter.mp hq1 with ⟨hqs, hqn⟩
    intro hid
    have := hresv q hqs ks i hid
    simp [this] at hqn
  have hnodup : ((filePoints agent_id [inp] fileId t).map QPoint.id).Nodup := by
    rw [hpts, List.map_map]
    have : (QPoint.id ∘ fun ic : Nat × String =>
        QPoint.mk (fileId ks ic.1)
          (ChunkPayload.mk agent_id ks ic.1 ic.2 "file" none t)) =
        ((fileId ks) ∘ Prod.fst) := rfl
    rw [this, ← List.map_map, List.enum_map_fst]
    exact (List.nodup_range _).map fun i j h => (hinj ks i ks j h).2
  rw [qdrantUpsert_append _ _ hfresh' hnodup, List.filter_append]
  have hnil := deleteBySources_filter_nil (fileFilterMatches agent_id)
    ((fileSources [inp]).map (·.1)) store ks (by rw [hfs]; simp)
  rw [hnil]
  simp

/-- C2: delete-then-upsert makes re-indexing the same
`(agent_id, knowledge_source)` idempotent on the vector store.  For URL
sources (random point ids, modelled by fresh injective id supplies) and for
file sources (deterministic `uuid5` ids, modelled by an injective key
function), the `(agent_id, knowledge_source)` slice of the store after two
runs is exactly the point set produced by the second run alone — equal to a
single run on the original store — so there are no duplicate chunks, no
growth, and no stale chunk of any prior content. -/
theorem index_reindex_idempotent :
    (∀ (a : String) (inputs : List (Option LinkInput)) (idGen₁ idGen₂ : Nat → String)
        (t₁ t₂ : String) (store : List QPoint) (ks : String),
        Function.Injective idGen₂ →
        (∀ i, ∀ p ∈ store, p.id ≠ idGen₂ i) →
        (∀ i j, idGen₁ i ≠ idGen₂ j) →
        ks ∈ linkDeleteSources inputs →
        (index_links_in_knowledge_base a inputs idGen₂ t₂
            (index_links_in_knowledge_base a inputs idGen₁ t₁ store)).filter
            (linkFilterMatches a ks) =
          (linkPoints a inputs idGen₂ t₂).filter (linkFilterMatches a ks) ∧
        (index_links_in_knowledge_base a inputs idGen₂ t₂
            (index_links_in_knowledge_base a inputs idGen₁ t₁ store)).filter
            (linkFilterMatches a ks) =
          (index_links_in_knowledge_base a inputs idGen₂ t₂ store).filter
            (linkFilterMatches a ks)) ∧
    (∀ (a : String) (inp : Option FileInput) (fileId : String → Nat → String)
        (t₁ t₂ : String) (store : List QPoint) (ks : String),
        (∀ ks₁ i₁ ks₂ i₂, fileId ks₁ i₁ = fileId ks₂ i₂ → ks₁ = ks₂ ∧ i₁ = i₂) →
        (∀ ks' i, ∀ p ∈ store, p.id ≠ fileId ks' i) →
        ks ∈ (fileSources [inp]).map Prod.fst →
        (index_files_in_knowledge_base a [inp] fileId t₂
            (index_files_in_knowledge_base a [inp] fileId t₁ store)).filter
            (fileFilterMatches a ks) =
          (filePoints a [inp] fileId t₂).filter (fileFilterMatches a ks)) := by
  constructor
  · intro a inputs idGen₁ idGen₂ t₁ t₂ store ks hinj₂ hfresh₂ hcross hks
    have hfresh₂' : ∀ i, ∀ p ∈ index_links_in_knowledge_base a inputs idGen₁ t₁ store,
        p.id ≠ idGen₂ i := by
      intro i p hp
      rcases index_links_mem a inputs idGen₁ t₁ store p hp with h | h
      · exact hfresh₂ i p h
      · rcases linkPoints_id_range a inputs idGen₁ t₁ p h with ⟨j, hj⟩
        rw [hj]
        exact hcross j i
    have h2 := index_links_filter a inputs idGen₂ t₂ _ ks hinj₂ hfresh₂' hks
    have h1 := index_links_filter a inputs idGen₂ t₂ store ks hinj₂ hfresh₂ hks
    exact ⟨h2, h2.trans h1.symm⟩
  · intro a inp fileId t₁ t₂ store ks hinj hfresh hks
    rcases fileSources_single inp ks hks with ⟨chunks, hfs⟩
    have hresv₁ : ∀ p ∈ store, ∀ ks' i, p.id = fileId ks' i →
        fileFilterMatches a ks p = true := by
      intro p hp ks' i hid
      exact absurd hid (hfresh ks' i p hp)
    have hresv₂ : ∀ p ∈ index_files_in_knowledge_base a [inp] fileId t₁ store,
        ∀ ks' i, p.id = fileId ks' i → fileFilterMatches a ks p = true := by
      intro p hp ks' i hid
      rcases index_files_mem a [inp] fileId t₁ store p hp with h | h
      · exact hresv₁ p h ks' i hid
      · rw [filePoints_single_char a inp fileId t₁ ks chunks hfs] at h
        rcases List.mem_map.mp h with ⟨ic, _, rfl⟩
        simp [fileFilterMatches]
    exact index_files_filter_single a inp fileId t₂ _ ks hinj hresv₂ hks

/-- A concrete fresh-id supply for the first witness run. -/
def witIdGen1 (i : Nat) : String := String.mk ('a' :: List.replicate i 'x')

/-- A concrete fresh-id supply for the second witness run. -/
def witIdGen2 (i : Nat) : String := String.mk ('b' :: List.replicate i 'x')

theorem witIdGen2_injective : Function.Injective witIdGen2 := by
  intro i j h
  have h3 : ('b' :: List.replicate i 'x') = ('b' :: List.replicate j 'x') :=
    congrArg String.data h
  have h4 := congrArg List.length h3
  simpa using h4

theorem witIdGen_cross (i j : Nat) : witIdGen1 i ≠ witIdGen2 j := by
  intro h
  have h3 := congrArg String.data h
  simp [witIdGen1, witIdGen2] at h3

theorem replicateHash_inj :
    ∀ (i₁ i₂ : Nat) (l₁ l₂ : List Char),
      List.replicate i₁ 'x' ++ '#' :: l₁ = List.replicate i₂ 'x' ++ '#' :: l₂ →
      i₁ = i₂ ∧ l₁ = l₂ := by
  intro i₁
  induction i₁ with
  | zero =>
    intro i₂ l₁ l₂ h
    cases i₂ with
    | zero => simpa using h
    | succ k => simp [List.replicate_succ] at h
  | succ j ih =>
    intro i₂ l₁ l₂ h
    cases i₂ with
    | zero => simp [List.replicate_succ] at h
    | succ k =>
      simp only [List.replicate_succ, List.cons_append, List.cons.injEq, true_and] at h
      rcases ih k l₁ l₂ h with ⟨hi, hl⟩
      exact ⟨by omega, hl⟩

/-- A concrete injective deterministic-id supply for the file witness. -/
def witFileId (ks : String) (i : Nat) : String :=
  String.mk (List.replicate i 'x' ++ '#' :: ks.data)

theorem witFileId_injective (ks₁ : String) (i₁ : Nat) (ks₂ : String) (i₂ : Nat) :
    witFileId ks₁ i₁ = witFileId ks₂ i₂ → ks₁ = ks₂ ∧ i₁ = i₂ := by
  intro h
  have hd : List.replicate i₁ 'x' ++ '#' :: ks₁.data =
      List.replicate i₂ 'x' ++ '#' :: ks₂.data := congrArg String.data h
  rcases replicateHash_inj i₁ i₂ ks₁.data ks₂.data hd with ⟨hi, hl⟩
  refine ⟨?_, hi⟩
  cases ks₁
  cases ks₂
  simp only at hl
  rw [hl]

/-! ## 4.1 URL normalisation — `url_services.normalize_url`

The model follows CPython's `urllib.parse` (3.9+ security behaviour): inside
`urlsplit`, leading C0-control/space characters are stripped and every tab,
carriage return and newline is removed; the scheme is recognised before `:`
when it starts with an ASCII letter and uses only scheme characters; the
netloc, when the remainder starts with `//`, runs to the first of `/?#`; the
fragment splits at the first `#`, then the query at the first `?`; `urlparse`
finally splits `;params` out of the last path segment.  Bracketed-IPv6 host
validation is elided (no claim concerns `[`-hosts). -/

/-- Characters removed everywhere by `urlsplit` (`_UNSAFE_URL_BYTES_TO_REMOVE`). -/
def isUnsafeUrlChar (c : Char) : Bool :=
  c = '\t' || c = '\r' || c = '\n'

/-- `_WHATWG_C0_CONTROL_OR_SPACE`. -/
def isC0OrSpace (c : Char) : Bool :=
  decide (c.toNat ≤ 32)

/-- The sanitisation at the top of `urlsplit`: lstrip C0/space, then remove
unsafe bytes. -/
def cleanUrl (l : List Char) : List Char :=
  (l.dropWhile isC0OrSpace).filter fun c => !(isUnsafeUrlChar c)

def isAsciiAlpha (c : Char) : Bool :=
  ('a' ≤ c && c ≤ 'z') || ('A' ≤ c && c ≤ 'Z')

/-- `scheme_chars` of `urllib.parse`. -/
def isSchemeChar (c : Char) : Bool :=
  isAsciiAlpha c || ('0' ≤ c && c ≤ '9') || c = '+' || c = '-' || c = '.'

/-- ASCII `str.lower` on one character. -/
def pyLowerChar (c : Char) : Char :=
  if 'A' ≤ c && c ≤ 'Z' then Char.ofNat (c.toNat + 32) else c

/-- `s.find(t)`. -/
def firstIdxOf (t : Char) : List Char → Option Nat
  | [] => none
  | c :: rest => if c = t then some 0 else (firstIdxOf t rest).map (· + 1)

/-- `s.rfind(t)`. -/
def lastIdxOf (t : Char) : List Char → Option Nat
  | [] => none
  | c :: rest =>
    match lastIdxOf t rest with
    | some j => some (j + 1)
    | none => if c = t then some 0 else none

/-- `s.find(t, start)`. -/
def firstIdxFrom (t : Char) (start : Nat) (l : List Char) : Option Nat :=
  (firstIdxOf t (l.drop start)).map (· + start)

/-- Scheme recognition of `urlsplit`: the part before the first `:` when it
is non-empty, starts with an ASCII letter and uses only scheme characters;
the scheme is lowercased. -/
def splitSchemeRest (l : List Char) : List Char × List Char :=
  match firstIdxOf ':' l with
  | none => ([], l)
  | some i =>
    if 0 < i && (match l.head? with | some c => isAsciiAlpha c | none => false) &&
        (l.take i).all isSchemeChar then
      ((l.take i).map pyLowerChar, l.drop (i + 1))
    else ([], l)

def notNetlocDelim (c : Char) : Bool :=
  !(c = '/' || c = '?' || c = '#')

/-- `_splitnetloc`: when the remainder starts with `//`, the netloc runs to
the first of `/?#`. -/
def splitNetlocRest (l : List Char) : List Char × List Char :=
  if l.take 2 = ['/', '/'] then
    ((l.drop 2).takeWhile notNetlocDelim, (l.drop 2).dropWhile notNetlocDelim)
  else ([], l)

/-- `s.split(t, 1)`: the part before the first `t` and the part after it
(empty when `t` is absent). -/
def splitAtFirst (t : Char) (l : List Char) : List Char × List Char :=
  (l.takeWhile fun c => !(c = t), ((l.dropWhile fun c => !(c = t)).drop 1))

/-- `_splitparams`: split `;params` out of the last path segment — the first
`;` at or after the last `/` (or the first `;` overall when there is no `/`). -/
def splitParams (x : List Char) : List Char × List Char :=
  if x.any (· = ';') then
    if x.any (· = '/') then
      match lastIdxOf '/' x with
      | some r =>
        match firstIdxFrom ';' r x with
        | some i => (x.take i, x.drop (i + 1))
        | none => (x, [])
      | none => (x, [])
    else
      match firstIdxOf ';' x with
      | some i => (x.take i, x.drop (i + 1))
      | none => (x, [])
  else (x, [])

/-- The result of `urlsplit`. -/
structure PySplit where
  scheme : List Char
  netloc : List Char
  path : List Char
  query : List Char
  fragment : List Char
deriving DecidableEq

/-- `urllib.parse.urlsplit` (fragments allowed). -/
def pyUrlsplit (url : List Char) : PySplit :=
  { scheme := (splitSchemeRest (cleanUrl url)).1
    netloc := (splitNetlocRest (splitSchemeRest (cleanUrl url)).2).1
    path := (splitAtFirst '?'
      (splitAtFirst '#' (splitNetlocRest (splitSchemeRest (cleanUrl url)).2).2).1).1
    query := (splitAtFirst '?'
      (splitAtFirst '#' (splitNetlocRest (splitSchemeRest (cleanUrl url)).2).2).1).2
    fragment :=
      (splitAtFirst '#' (splitNetlocRest (splitSchemeRest (cleanUrl url)).2).2).2 }

/-- The result of `urlparse`. -/
structure PyParse where
  scheme : List Char
  netloc : List Char
  path : List Char
  params : List Char
  query : List Char
  fragment : List Char
deriving DecidableEq

/-- `urllib.parse.urlparse`. -/
def pyUrlparse (url : List Char) : PyParse :=
  { scheme := (pyUrlsplit url).scheme
    netloc := (pyUrlsplit url).netloc
    path := (splitParams (pyUrlsplit url).path).1
    params := (splitParams (pyUrlsplit url).path).2
    query := (pyUrlsplit url).query
    fragment := (pyUrlsplit url).fragment }

/-- `path;params` recombination done by `urlunparse`. -/
def joinParams (ab : List Char × List Char) : List Char :=
  if ab.2 = [] then ab.1 else ab.1 ++ ';' :: ab.2

/-- `urllib.parse.urlunparse` restricted to the shape `normalize_url` emits:
non-empty netloc and empty fragment are the callers' invariants, but the
definition keeps the full conditional structure of CPython. -/
def pyUrlunparse (scheme netloc path params query fragment : List Char) :
    List Char :=
  (fun u2 =>
    (fun u3 =>
      (fun u4 => if fragment = [] then u4 else u4 ++ '#' :: fragment)
        (if query = [] then u3 else u3 ++ '?' :: query))
      (if scheme = [] then u2 else scheme ++ ':' :: u2))
    (if netloc ≠ [] ∨ (joinParams (path, params)).take 2 = ['/', '/'] then
      '/' :: '/' :: netloc ++
        (if joinParams (path, params) ≠ [] ∧
            (joinParams (path, params)).head? ≠ some '/' then
          '/' :: joinParams (path, params)
        else joinParams (path, params))
    else joinParams (path, params))

theorem char_le_iff_toNat {a b : Char} : a ≤ b ↔ a.toNat ≤ b.toNat := by
  simp only [Char.le_def, UInt32.le_def, BitVec.le_def]
  exact Iff.rfl

theorem char_toNat_inj {a b : Char} (h : a.toNat = b.toNat) : a = b := by
  rw [← Char.ofNat_toNat a, ← Char.ofNat_toNat b, h]

theorem char_ofNat_toNat {n : Nat} (h : n < 55296) : (Char.ofNat n).toNat = n := by
  unfold Char.ofNat
  split
  · rfl
  · next hne => exact absurd (Or.inl (by omega)) hne

theorem pyLower_toNat (c : Char) (h1 : 'A' ≤ c) (h2 : c ≤ 'Z') :
    (pyLowerChar c).toNat = c.toNat + 32 := by
  unfold pyLowerChar
  rw [if_pos (by simp [h1, h2])]
  have hb1 : 65 ≤ c.toNat := by simpa using char_le_iff_toNat.mp h1
  have hb2 : c.toNat ≤ 90 := by simpa using char_le_iff_toNat.mp h2
  exact char_ofNat_toNat (by omega)

theorem pyLower_eq_self (c : Char) (h : ¬ ('A' ≤ c ∧ c ≤ 'Z')) : pyLowerChar c = c := by
  unfold pyLowerChar
  rw [if_neg]
  simpa using h

/-- Either `pyLowerChar` leaves a character unchanged, or the result is a
lowercase ASCII letter. -/
theorem pyLower_cases (c : Char) :
    pyLowerChar c = c ∨ (97 ≤ (pyLowerChar c).toNat ∧ (pyLowerChar c).toNat ≤ 122) := by
  by_cases h : 'A' ≤ c ∧ c ≤ 'Z'
  · right
    rw [pyLower_toNat c h.1 h.2]
    have hb1 : 65 ≤ c.toNat := by simpa using char_le_iff_toNat.mp h.1
    have hb2 : c.toNat ≤ 90 := by simpa using char_le_iff_toNat.mp h.2
    omega
  · left; exact pyLower_eq_self c h

theorem pyLower_idem (c : Char) : pyLowerChar (pyLowerChar c) = pyLowerChar c := by
  rcases pyLower_cases c with h | h
  · rw [h, h]
  · apply pyLower_eq_self
    intro hcon
    have := char_le_iff_toNat.mp hcon.2
    have hz : ('Z').toNat = 90 := by decide
    omega

theorem pyLower_notNetlocDelim (c : Char) (h : notNetlocDelim c = true) :
    notNetlocDelim (pyLowerChar c) = true := by
  rcases pyLower_cases c with hc | hc
  · rw [hc]; exact h
  · unfold notNetlocDelim
    simp only [Bool.not_eq_true', Bool.or_eq_false_iff, decide_eq_false_iff_not]
    refine ⟨⟨?_, ?_⟩, ?_⟩ <;>
      · intro he
        rw [he] at hc
        revert hc
        decide

theorem pyLower_not_unsafe (c : Char) (h : isUnsafeUrlChar c = false) :
    isUnsafeUrlChar (pyLowerChar c) = false := by
  rcases pyLower_cases c with hc | hc
  · rw [hc]; exact h
  · unfold isUnsafeUrlChar
    simp only [Bool.or_eq_false_iff, decide_eq_false_iff_not]
    refine ⟨⟨?_, ?_⟩, ?_⟩ <;>
      · intro he
        rw [he] at hc
        revert hc
        decide

/-! ### Index-scanning lemmas -/

theorem firstIdxOf_none_iff (t : Char) :
    ∀ l : List Char, firstIdxOf t l = none ↔ ∀ c ∈ l, c ≠ t := by
  intro l
  induction l with
  | nil => simp [firstIdxOf]
  | cons c rest ih =>
    unfold firstIdxOf
    by_cases hc : c = t
    · simp [hc]
    · simp only [if_neg hc, List.mem_cons]
      constructor
      · intro h x hx
        rcases hx with rfl | hx
        · exact hc
        · cases hr : firstIdxOf t rest with
          | none => exact (ih.mp hr) x hx
          | some i => rw [hr] at h; simp at h
      · intro h
        rw [ih.mpr fun x hx => h x (Or.inr hx)]
        rfl

theorem firstIdxOf_some :
    ∀ (l : List Char) (t : Char) (i : Nat), firstIdxOf t l = some i →
      (∀ c ∈ l.take i, c ≠ t) ∧ l.drop i = t :: l.drop (i + 1) ∧ i < l.length := by
  intro l
  induction l with
  | nil => intro t i h; simp [firstIdxOf] at h
  | cons c rest ih =>
    intro t i h
    unfold firstIdxOf at h
    by_cases hc : c = t
    · rw [if_pos hc] at h
      simp only [Option.some.injEq] at h
      subst h
      subst hc
      refine ⟨by intro x hx; simp at hx, rfl, by simp⟩
    · rw [if_neg hc] at h
      cases hr : firstIdxOf t rest with
      | none =>
        rw [hr] at h
        simp only [Option.map_none'] at h
        exact Option.noConfusion h
      | some j =>
        rw [hr] at h
        simp only [Option.map_some', Option.some.injEq] at h
        subst h
        rcases ih t j hr with ⟨h1, h2, h3⟩
        refine ⟨?_, by simpa using h2, by simpa using h3⟩
        intro x hx
        simp only [List.take_succ_cons, List.mem_cons] at hx
        rcases hx with rfl | hx
        · exact hc
        · exact h1 x hx

theorem lastIdxOf_none_iff (t : Char) :
    ∀ l : List Char, lastIdxOf t l = none ↔ ∀ c ∈ l, c ≠ t := by
  intro l
  induction l with
  | nil => simp [lastIdxOf]
  | cons c rest ih =>
    unfold lastIdxOf
    cases hr : lastIdxOf t rest with
    | some j =>
      simp only [List.mem_cons]
      constructor
      · intro h; exact absurd h (by simp)
      · intro h
        exfalso
        have hx : ∀ x ∈ rest, x ≠ t := fun x hx => h x (Or.inr hx)
        rw [ih.mpr hx] at hr
        exact Option.noConfusion hr
    | none =>
      by_cases hc : c = t
      · simp [hc]
      · simp only [if_neg hc, List.mem_cons]
        constructor
        · intro _ x hx
          rcases hx with rfl | hx
          · exact hc
          · exact (ih.mp hr) x hx
        · intro _
          trivial

theorem lastIdxOf_some :
    ∀ (l : List Char) (t : Char) (r : Nat), lastIdxOf t l = some r →
      l.drop r = t :: l.drop (r + 1) ∧ (∀ c ∈ l.drop (r + 1), c ≠ t) ∧ r < l.length := by
  intro l
  induction l with
  | nil => intro t r h; simp [lastIdxOf] at h
  | cons c rest ih =>
    intro t r h
    unfold lastIdxOf at h
    cases hr : lastIdxOf t rest with
    | some j =>
      rw [hr] at h
      simp only [Option.some.injEq] at h
      subst h
      rcases ih t j hr with ⟨h1, h2, h3⟩
      exact ⟨by simpa using h1, by simpa using h2, by simpa using h3⟩
    | none =>
      rw [hr] at h
      by_cases hc : c = t
      · rw [if_pos hc] at h
        simp only [Option.some.injEq] at h
        subst h
        subst hc
        refine ⟨by simp, ?_, by simp⟩
        simpa using (lastIdxOf_none_iff c rest).mp hr
      · rw [if_neg hc] at h
        simp at h

theorem firstIdxOf_append (t : Char) :
    ∀ u v : List Char, firstIdxOf t (u ++ v) =
      match firstIdxOf t u with
      | some i => some i
      | none => (firstIdxOf t v).map (· + u.length) := by
  intro u
  induction u with
  | nil =>
    intro v
    cases hv : firstIdxOf t v with
    | none => simp [firstIdxOf, hv]
    | some j => simp [firstIdxOf, hv]
  | cons c rest ih =>
    intro v
    by_cases hc : c = t
    · simp [firstIdxOf, hc]
    · have hL : firstIdxOf t ((c :: rest) ++ v) =
          (firstIdxOf t (rest ++ v)).map (· + 1) := by
        simp [firstIdxOf, hc]
      have hR : firstIdxOf t (c :: rest) = (firstIdxOf t rest).map (· + 1) := by
        simp [firstIdxOf, hc]
      rw [hL, ih v, hR]
      cases hr : firstIdxOf t rest with
      | some i => simp
      | none =>
        cases hv : firstIdxOf t v with
        | some j =>
          simp only [Option.map_none', Option.map_some', Option.some.injEq,
            List.length_cons]
          omega
        | none => simp

theorem lastIdxOf_append (t : Char) :
    ∀ u v : List Char, lastIdxOf t (u ++ v) =
      match lastIdxOf t v with
      | some j => some (u.length + j)
      | none => lastIdxOf t u := by
  intro u
  induction u with
  | nil => intro v; cases hv : lastIdxOf t v <;> simp [lastIdxOf, hv]
  | cons c rest ih =>
    intro v
    have hL : lastIdxOf t ((c :: rest) ++ v) =
        match lastIdxOf t (rest ++ v) with
        | some j => some (j + 1)
        | none => if c = t then some 0 else none := rfl
    have hR : lastIdxOf t (c :: rest) =
        match lastIdxOf t rest with
        | some j => some (j + 1)
        | none => if c = t then some 0 else none := rfl
    rw [hL, ih v]
    cases hv : lastIdxOf t v with
    | some j =>
      simp only [Option.some.injEq, List.length_cons]
      omega
    | none =>
      rw [hR]

/-- Computation lemma for `splitParams` in the slash case: exposes the inner
match on the semicolon search at top level so it can be rewritten. -/
theorem splitParams_slash_eq (x : List Char) (r : Nat)
    (h1 : x.any (· = ';') = true) (h2 : x.any (· = '/') = true)
    (h3 : lastIdxOf '/' x = some r) :
    splitParams x =
      match firstIdxFrom ';' r x with
      | some i => (x.take i, x.drop (i + 1))
      | none => (x, []) := by
  unfold splitParams
  rw [h1, h2, h3]
  rfl

/-- Computation lemma for `splitParams` in the no-slash case. -/
theorem splitParams_noslash_eq (x : List Char)
    (h1 : x.any (· = ';') = true) (h2 : x.any (· = '/') = false) :
    splitParams x =
      match firstIdxOf ';' x with
      | some i => (x.take i, x.drop (i + 1))
      | none => (x, []) := by
  unfold splitParams
  rw [h1, h2]
  rfl

theorem drop_cons_decomp (x : List Char) (i : Nat) (c : Char)
    (h : x.drop i = c :: x.drop (i + 1)) : x = x.take i ++ c :: x.drop (i + 1) := by
  conv_lhs => rw [← List.take_append_drop i x]
  rw [h]

/-- If the last path segment of `a` is `;`-free and `b` is `/`-free,
`_splitparams` recovers `(a, b)` from `a ++ ';' ++ b` — the slash case. -/
theorem splitParams_A (a b : List Char) (r : Nat)
    (hra : lastIdxOf '/' a = some r)
    (hnb : ∀ c ∈ b, c ≠ '/')
    (hna : ∀ c ∈ a.drop r, c ≠ ';') :
    splitParams (a ++ ';' :: b) = (a, b) := by
  have hsemi : (a ++ ';' :: b).any (· = ';') = true :=
    List.any_eq_true.mpr ⟨';', List.mem_append.mpr (Or.inr (List.mem_cons_self _ _)),
      by decide⟩
  rcases lastIdxOf_some a '/' r hra with ⟨hdr, _, hrlen⟩
  have hslash : (a ++ ';' :: b).any (· = '/') = true := by
    apply List.any_eq_true.mpr
    refine ⟨'/', ?_, by decide⟩
    refine List.mem_append.mpr (Or.inl ?_)
    have hm : '/' ∈ a.drop r := by rw [hdr]; exact List.mem_cons_self _ _
    exact List.drop_subset r a hm
  have hlb : lastIdxOf '/' (';' :: b) = none := by
    apply (lastIdxOf_none_iff '/' (';' :: b)).mpr
    intro c hc
    rcases List.mem_cons.mp hc with rfl | hc
    · decide
    · exact hnb c hc
  have hlast : lastIdxOf '/' (a ++ ';' :: b) = some r := by
    rw [lastIdxOf_append '/' a (';' :: b), hlb]
    exact hra
  have hfna : firstIdxOf ';' (a.drop r) = none :=
    (firstIdxOf_none_iff ';' (a.drop r)).mpr hna
  have hfirst : firstIdxFrom ';' r (a ++ ';' :: b) = some a.length := by
    unfold firstIdxFrom
    rw [List.drop_append_of_le_length (by omega),
      firstIdxOf_append ';' (a.drop r) (';' :: b), hfna]
    have h0 : firstIdxOf ';' (';' :: b) = some 0 := by simp [firstIdxOf]
    rw [h0]
    simp only [Option.map_some', Option.some.injEq, List.length_drop]
    omega
  have hdrop : (a ++ ';' :: b).drop (a.length + 1) = b := by
    rw [List.drop_append]
    rfl
  rw [splitParams_slash_eq _ r hsemi hslash hlast, hfirst]
  show ((a ++ ';' :: b).take a.length, (a ++ ';' :: b).drop (a.length + 1)) = (a, b)
  rw [List.take_left, hdrop]

/-- `_splitparams` recovers `(a, b)` from `a ++ ';' ++ b` when nothing
involved contains a slash and `a` is `;`-free — the no-slash case. -/
theorem splitParams_B (a b : List Char)
    (hnsa : ∀ c ∈ a, c ≠ '/') (hnsb : ∀ c ∈ b, c ≠ '/')
    (hna : ∀ c ∈ a, c ≠ ';') :
    splitParams (a ++ ';' :: b) = (a, b) := by
  have hsemi : (a ++ ';' :: b).any (· = ';') = true :=
    List.any_eq_true.mpr ⟨';', List.mem_append.mpr (Or.inr (List.mem_cons_self _ _)),
      by decide⟩
  have hslash : (a ++ ';' :: b).any (· = '/') = false := by
    apply List.any_eq_false.mpr
    intro c hc
    rcases List.mem_append.mp hc with hc | hc
    · simpa using hnsa c hc
    · rcases List.mem_cons.mp hc with rfl | hc
      · decide
      · simpa using hnsb c hc
  have hfna : firstIdxOf ';' a = none := (firstIdxOf_none_iff ';' a).mpr hna
  have hfirst : firstIdxOf ';' (a ++ ';' :: b) = some a.length := by
    rw [firstIdxOf_append ';' a (';' :: b), hfna]
    have h0 : firstIdxOf ';' (';' :: b) = some 0 := by simp [firstIdxOf]
    rw [h0]
    simp
  have hdrop : (a ++ ';' :: b).drop (a.length + 1) = b := by
    rw [List.drop_append]
    rfl
  rw [splitParams_noslash_eq _ hsemi hslash, hfirst]
  show ((a ++ ';' :: b).take a.length, (a ++ ';' :: b).drop (a.length + 1)) = (a, b)
  rw [List.take_left, hdrop]

/-- `joinParams ∘ splitParams` is a fixpoint of `splitParams`: re-parsing the
`path;params` string that `urlunparse` rebuilds re-splits it identically. -/
theorem splitParams_join (x : List Char) :
    splitParams (joinParams (splitParams x)) = splitParams x := by
  by_cases hsemi : x.any (· = ';') = true
  swap
  · have hx : splitParams x = (x, []) := by
      unfold splitParams
      rw [if_neg (by simpa using hsemi)]
    rw [hx]
    show splitParams x = (x, [])
    exact hx
  by_cases hslash : x.any (· = '/') = true
  · rcases hlx : lastIdxOf '/' x with _ | r
    · exfalso
      rcases List.any_eq_true.mp hslash with ⟨c, hc, hceq⟩
      have := (lastIdxOf_none_iff '/' x).mp hlx c hc
      simp at hceq
      exact this hceq
    · rcases hfx : firstIdxFrom ';' r x with _ | i
      · have hx : splitParams x = (x, []) := by
          rw [splitParams_slash_eq x r hsemi hslash hlx, hfx]
        rw [hx]
        show splitParams x = (x, [])
        exact hx
      · have hx : splitParams x = (x.take i, x.drop (i + 1)) := by
          rw [splitParams_slash_eq x r hsemi hslash hlx, hfx]
        rcases lastIdxOf_some x '/' r hlx with ⟨hdr, hnr, hrlen⟩
        obtain ⟨i', hfi', rfl⟩ : ∃ i', firstIdxOf ';' (x.drop r) = some i' ∧ i = i' + r := by
          unfold firstIdxFrom at hfx
          cases hfo : firstIdxOf ';' (x.drop r) with
          | none => rw [hfo] at hfx; simp at hfx
          | some j =>
            rw [hfo] at hfx
            simp only [Option.map_some', Option.some.injEq] at hfx
            exact ⟨j, rfl, hfx.symm⟩
        rcases firstIdxOf_some (x.drop r) ';' i' hfi' with ⟨hta, htd, htl⟩
        have hxdrop : x.drop (i' + r) = ';' :: x.drop (i' + r + 1) := by
          have h1 : (x.drop r).drop i' = x.drop (i' + r) := by
            rw [List.drop_drop]
            congr 1
            omega
          have h2 : (x.drop r).drop (i' + 1) = x.drop (i' + 1 + r) := by
            rw [List.drop_drop]
            congr 1
            omega
          rw [h1, h2] at htd
          have h4 : i' + 1 + r = i' + r + 1 := by omega
          rw [htd, h4]
        have hi'pos : 1 ≤ i' := by
          rcases Nat.eq_zero_or_pos i' with h0 | h0
          · exfalso
            subst h0
            have hh : x.drop r = ';' :: (x.drop r).drop 1 := by simpa using htd
            rw [hdr] at hh
            simp at hh
          · exact h0
        have hilen : i' + r < x.length := by
          have h3 := htl
          rw [List.length_drop] at h3
          omega
        have halen : (x.take (i' + r)).length = i' + r := by
          simp only [List.length_take]
          omega
        have hdecomp : x = x.take (i' + r) ++ ';' :: x.drop (i' + r + 1) :=
          drop_cons_decomp x (i' + r) ';' hxdrop
        have hb_nslash : ∀ c ∈ x.drop (i' + r + 1), c ≠ '/' := by
          intro c hc
          apply hnr c
          have hdd : (x.drop (r + 1)).drop i' = x.drop (i' + r + 1) := by
            rw [List.drop_drop]
            congr 1
            omega
          rw [← hdd] at hc
          exact List.drop_subset _ _ hc
        have hseg : (x.take (i' + r)).drop r = (x.drop r).take i' := by
          rw [List.drop_take]
          congr 1
          omega
        have hna_seg : ∀ c ∈ (x.take (i' + r)).drop r, c ≠ ';' := by
          intro c hc
          rw [hseg] at hc
          exact hta c hc
        have hcons_nslash : ∀ c ∈ ';' :: x.drop (i' + r + 1), c ≠ '/' := by
          intro c hc
          rcases List.mem_cons.mp hc with rfl | hc
          · decide
          · exact hb_nslash c hc
        have hlast_a : lastIdxOf '/' (x.take (i' + r)) = some r := by
          have h1 := hlx
          rw [hdecomp] at h1
          rw [lastIdxOf_append '/' _ _,
            (lastIdxOf_none_iff '/' _).mpr hcons_nslash] at h1
          exact h1
        by_cases hb : x.drop (i' + r + 1) = []
        · have hjoin : joinParams (splitParams x) = x.take (i' + r) := by
            rw [hx, hb]
            rfl
          rw [hjoin, hx, hb]
          by_cases hsa : (x.take (i' + r)).any (· = ';') = true
          · have hslash_a : (x.take (i' + r)).any (· = '/') = true := by
              apply List.any_eq_true.mpr
              refine ⟨'/', ?_, by decide⟩
              have hm : '/' ∈ (x.take (i' + r)).drop r := by
                rw [hseg, hdr]
                cases i' with
                | zero => omega
                | succ k => exact List.mem_cons_self _ _
              exact List.drop_subset _ _ hm
            have hfa : firstIdxFrom ';' r (x.take (i' + r)) = none := by
              unfold firstIdxFrom
              rw [(firstIdxOf_none_iff ';' _).mpr hna_seg]
              rfl
            rw [splitParams_slash_eq _ r hsa hslash_a hlast_a, hfa]
          · unfold splitParams
            rw [if_neg (by simpa using hsa)]
        · have hjoin : joinParams (splitParams x) =
              x.take (i' + r) ++ ';' :: x.drop (i' + r + 1) := by
            rw [hx]
            unfold joinParams
            rw [if_neg hb]
          rw [hjoin, hx]
          exact splitParams_A _ _ r hlast_a hb_nslash hna_seg
  · rcases hfx : firstIdxOf ';' x with _ | i
    · exfalso
      rcases List.any_eq_true.mp hsemi with ⟨c, hc, hceq⟩
      have := (firstIdxOf_none_iff ';' x).mp hfx c hc
      simp at hceq
      exact this hceq
    · have hslashF : x.any (· = '/') = false := Bool.eq_false_iff.mpr hslash
      have hx : splitParams x = (x.take i, x.drop (i + 1)) := by
        rw [splitParams_noslash_eq x hsemi hslashF, hfx]
      rcases firstIdxOf_some x ';' i hfx with ⟨hta, htd, _⟩
      have hmem : '/' ∉ x := by simpa using hslash
      have hnoslash : ∀ c ∈ x, c ≠ '/' := by
        intro c hc hceq
        exact hmem (hceq ▸ hc)
      by_cases hb : x.drop (i + 1) = []
      · have hjoin : joinParams (splitParams x) = x.take i := by
          rw [hx, hb]
          rfl
        rw [hjoin, hx, hb]
        have hsa : (x.take i).any (· = ';') = false := by
          apply List.any_eq_false.mpr
          intro c hc
          simpa using hta c hc
        unfold splitParams
        rw [if_neg (by simp [hsa])]
      · have hjoin : joinParams (splitParams x) =
            x.take i ++ ';' :: x.drop (i + 1) := by
          rw [hx]
          unfold joinParams
          rw [if_neg hb]
        rw [hjoin, hx]
        exact splitParams_B _ _
          (fun c hc => hnoslash c (List.take_subset _ _ hc))
          (fun c hc => hnoslash c (List.drop_subset _ _ hc))
          hta

/-- `url.removeprefix("www.")`. -/
def removePrefixWWW (l : List Char) : List Char :=
  if l.take 4 = "www.".toList then l.drop 4 else l

/-- The scheme-and-netloc checks and reconstruction of `normalize_url`
(lines 50–68). -/
def normalizeParsed (p : PyParse) : Except String String :=
  if p.scheme = "http".toList ∨ p.scheme = "https".toList then
    if p.netloc = [] then Except.error "Invalid URL: missing domain-host"
    else
      Except.ok (String.mk (pyUrlunparse p.scheme (p.netloc.map pyLowerChar)
        (if p.path = [] then ['/'] else p.path) p.params p.query []))
  else Except.error "Invalid URL scheme: only http and https are supported."

/-- `normalize_url` (lines 21–68): reject empty input, strip, drop a leading
`www.`, parse, prepend `https://` and reparse when no scheme was found,
validate, and reconstruct with lowercased host, `/`-defaulted path and no
fragment. -/
def normalize_url (url : String) : Except String String :=
  if url.toList = [] then Except.error "URL must be a non-empty string"
  else
    if (pyUrlparse (removePrefixWWW (pyStrip url.toList))).scheme = [] then
      normalizeParsed
        (pyUrlparse ("https://".toList ++ removePrefixWWW (pyStrip url.toList)))
    else normalizeParsed (pyUrlparse (removePrefixWWW (pyStrip url.toList)))

/-! ### Scanning helpers for the idempotence proof -/

theorem tw_all (p : Char → Bool) : ∀ l : List Char, (∀ c ∈ l, p c = true) →
    l.takeWhile p = l := by
  intro l
  induction l with
  | nil => intro h; rfl
  | cons c rest ih =>
    intro h
    rw [List.takeWhile_cons, if_pos (h c (List.mem_cons_self _ _)),
      ih fun d hd => h d (List.mem_cons_of_mem c hd)]

theorem dw_all (p : Char → Bool) : ∀ l : List Char, (∀ c ∈ l, p c = true) →
    l.dropWhile p = [] := by
  intro l
  induction l with
  | nil => intro h; rfl
  | cons c rest ih =>
    intro h
    rw [List.dropWhile_cons, if_pos (h c (List.mem_cons_self _ _))]
    exact ih fun d hd => h d (List.mem_cons_of_mem c hd)

theorem tw_append (p : Char → Bool) (d : Char) (hd : p d = false) :
    ∀ a z : List Char, (∀ c ∈ a, p c = true) →
      (a ++ d :: z).takeWhile p = a := by
  intro a
  induction a with
  | nil =>
    intro z h
    rw [List.nil_append, List.takeWhile_cons, if_neg (by simp [hd])]
  | cons c rest ih =>
    intro z h
    rw [List.cons_append, List.takeWhile_cons, if_pos (h c (List.mem_cons_self _ _)),
      ih z fun e he => h e (List.mem_cons_of_mem c he)]

theorem dw_append (p : Char → Bool) (d : Char) (hd : p d = false) :
    ∀ a z : List Char, (∀ c ∈ a, p c = true) →
      (a ++ d :: z).dropWhile p = d :: z := by
  intro a
  induction a with
  | nil =>
    intro z h
    rw [List.nil_append, List.dropWhile_cons, if_neg (by simp [hd])]
  | cons c rest ih =>
    intro z h
    rw [List.cons_append, List.dropWhile_cons, if_pos (h c (List.mem_cons_self _ _))]
    exact ih z fun e he => h e (List.mem_cons_of_mem c he)

theorem splitAtFirst_none (t : Char) (l : List Char) (h : ∀ c ∈ l, c ≠ t) :
    splitAtFirst t l = (l, []) := by
  unfold splitAtFirst
  rw [tw_all _ l fun c hc => by simpa using h c hc,
    dw_all _ l fun c hc => by simpa using h c hc]
  rfl

theorem splitAtFirst_found (t : Char) (a b : List Char) (ha : ∀ c ∈ a, c ≠ t) :
    splitAtFirst t (a ++ t :: b) = (a, b) := by
  unfold splitAtFirst
  rw [tw_append _ t (by simp) a b fun c hc => by simpa using ha c hc,
    dw_append _ t (by simp) a b fun c hc => by simpa using ha c hc]
  rfl

theorem cleanUrl_eq_self (l : List Char)
    (h1 : ∀ c ∈ l, isUnsafeUrlChar c = false)
    (h2 : ∀ c, l.head? = some c → isC0OrSpace c = false) :
    cleanUrl l = l := by
  unfold cleanUrl
  have hdw : l.dropWhile isC0OrSpace = l := by
    cases l with
    | nil => rfl
    | cons c rest => rw [List.dropWhile_cons, if_neg (by simp [h2 c rfl])]
  rw [hdw, List.filter_eq_self.mpr fun c hc => by simp [h1 c hc]]

theorem splitSchemeRest_http (rest : List Char) :
    splitSchemeRest ("http".toList ++ ':' :: rest) = ("http".toList, rest) := rfl

theorem splitSchemeRest_https (rest : List Char) :
    splitSchemeRest ("https".toList ++ ':' :: rest) = ("https".toList, rest) := rfl

theorem splitNetlocRest_eq (nl z : List Char) (d : Char)
    (hnl : ∀ c ∈ nl, notNetlocDelim c = true) (hd : notNetlocDelim d = false) :
    splitNetlocRest ('/' :: '/' :: (nl ++ d :: z)) = (nl, d :: z) := by
  unfold splitNetlocRest
  rw [if_pos (show List.take 2 ('/' :: '/' :: (nl ++ d :: z)) = ['/', '/'] from rfl)]
  show ((nl ++ d :: z).takeWhile notNetlocDelim,
    (nl ++ d :: z).dropWhile notNetlocDelim) = (nl, d :: z)
  rw [tw_append _ d hd nl z hnl, dw_append _ d hd nl z hnl]

theorem joinParams_ne_nil (p q : List Char) (hp : p ≠ []) : joinParams (p, q) ≠ [] := by
  unfold joinParams
  by_cases hq : q = []
  · rw [if_pos hq]; exact hp
  · rw [if_neg hq]; simp

theorem joinParams_cons (c : Char) (p q : List Char) :
    joinParams (c :: p, q) = c :: joinParams (p, q) := by
  unfold joinParams
  by_cases hq : q = []
  · rw [if_pos hq, if_pos hq]
  · rw [if_neg hq, if_neg hq]; rfl

theorem joinParams_cons_head (c : Char) (p q : List Char) :
    ∃ w, joinParams (c :: p, q) = c :: w :=
  ⟨joinParams (p, q), joinParams_cons c p q⟩

theorem mem_joinParams (p q : List Char) (c : Char) (h : c ∈ joinParams (p, q)) :
    c ∈ p ∨ c = ';' ∨ c ∈ q := by
  unfold joinParams at h
  by_cases hq : q = []
  · rw [if_pos hq] at h; exact Or.inl h
  · rw [if_neg hq] at h
    rcases List.mem_append.mp h with h | h
    · exact Or.inl h
    · rcases List.mem_cons.mp h with rfl | h
      · exact Or.inr (Or.inl rfl)
      · exact Or.inr (Or.inr h)

theorem map_pyLower_idem (l : List Char) :
    (l.map pyLowerChar).map pyLowerChar = l.map pyLowerChar := by
  induction l with
  | nil => rfl
  | cons c rest ih => simp [pyLower_idem, ih]

/-- The path component `_splitparams` leaves behind never has a `;` after its
last `/` (nor anywhere, when it has no `/`). -/
def tailSemiFree (p : List Char) : Prop :=
  (∀ r, lastIdxOf '/' p = some r → ∀ c ∈ p.drop (r + 1), c ≠ ';') ∧
  (lastIdxOf '/' p = none → ∀ c ∈ p, c ≠ ';')

theorem tailSemiFree_of_semiFree (p : List Char) (h : ∀ c ∈ p, c ≠ ';') :
    tailSemiFree p :=
  ⟨fun _ _ c hc => h c (List.drop_subset _ _ hc), fun _ => h⟩

theorem tailSemiFree_slash : tailSemiFree ['/'] := by
  constructor
  · intro r hr c hc
    have h0 : lastIdxOf '/' ['/'] = some 0 := rfl
    rw [h0] at hr
    injection hr with h2
    subst h2
    simp at hc
  · intro h
    exact absurd h (by decide)

theorem lastIdxOf_cons (t c : Char) (p : List Char) :
    lastIdxOf t (c :: p) = match lastIdxOf t p with
      | some j => some (j + 1)
      | none => if c = t then some 0 else none := rfl

theorem tailSemiFree_cons_slash (p : List Char) (h : tailSemiFree p) :
    tailSemiFree ('/' :: p) := by
  obtain ⟨hsome, hnone⟩ := h
  constructor
  · intro r hr c hc
    cases hlp : lastIdxOf '/' p with
    | some j =>
      rw [lastIdxOf_cons, hlp] at hr
      have hrj : r = j + 1 := by
        have := hr
        simp at this
        omega
      subst hrj
      exact hsome j hlp c (by simpa using hc)
    | none =>
      rw [lastIdxOf_cons, hlp] at hr
      have hr0 : r = 0 := by
        have := hr
        simp at this
        omega
      subst hr0
      exact hnone hlp c (by simpa using hc)
  · intro hcon
    cases hlp : lastIdxOf '/' p with
    | some j =>
      rw [lastIdxOf_cons, hlp] at hcon
      exact Option.noConfusion hcon
    | none =>
      rw [lastIdxOf_cons, hlp] at hcon
      simp at hcon

/-- The two components of `_splitparams`: the path keeps no `;` after its
last `/`, the params carry no `/`, and both are made of characters of the
input. -/
theorem splitParams_facts (x : List Char) :
    tailSemiFree (splitParams x).1 ∧
    (∀ c ∈ (splitParams x).2, c ≠ '/') ∧
    (∀ c ∈ (splitParams x).1, c ∈ x) ∧
    (∀ c ∈ (splitParams x).2, c ∈ x) := by
  by_cases hsemi : x.any (· = ';') = true
  swap
  · have hx : splitParams x = (x, []) := by
      unfold splitParams
      rw [if_neg (by simpa using hsemi)]
    rw [hx]
    have hsf : ∀ c ∈ x, c ≠ ';' := by
      intro c hc hceq
      exact hsemi (List.any_eq_true.mpr ⟨c, hc, by simp [hceq]⟩)
    exact ⟨tailSemiFree_of_semiFree x hsf, by simp, fun c h => h, by simp⟩
  by_cases hslash : x.any (· = '/') = true
  · rcases hlx : lastIdxOf '/' x with _ | r
    · exfalso
      rcases List.any_eq_true.mp hslash with ⟨c, hc, hceq⟩
      have := (lastIdxOf_none_iff '/' x).mp hlx c hc
      simp at hceq
      exact this hceq
    · rcases lastIdxOf_some x '/' r hlx with ⟨hdr, hnr, hrlen⟩
      rcases hfx : firstIdxFrom ';' r x with _ | i
      · have hx : splitParams x = (x, []) := by
          rw [splitParams_slash_eq x r hsemi hslash hlx, hfx]
        rw [hx]
        have hpost : ∀ c ∈ x.drop (r + 1), c ≠ ';' := by
          intro c hc
          have hfo : firstIdxOf ';' (x.drop r) = none := by
            unfold firstIdxFrom at hfx
            cases hfo : firstIdxOf ';' (x.drop r) with
            | none => rfl
            | some j => rw [hfo] at hfx; simp at hfx
          have := (firstIdxOf_none_iff ';' (x.drop r)).mp hfo c
          apply this
          rw [hdr]
          exact List.mem_cons_of_mem _ hc
        refine ⟨⟨?_, ?_⟩, by simp, fun c h => h, by simp⟩
        · intro r₂ hr₂
          rw [hlx] at hr₂
          injection hr₂ with h2
          subst h2
          exact hpost
        · intro hcon
          rw [hlx] at hcon
          exact Option.noConfusion hcon
      · obtain ⟨i', hfi', rfl⟩ : ∃ i', firstIdxOf ';' (x.drop r) = some i' ∧
            i = i' + r := by
          unfold firstIdxFrom at hfx
          cases hfo : firstIdxOf ';' (x.drop r) with
          | none => rw [hfo] at hfx; simp at hfx
          | some j =>
            rw [hfo] at hfx
            simp only [Option.map_some', Option.some.injEq] at hfx
            exact ⟨j, rfl, hfx.symm⟩
        have hx : splitParams x = (x.take (i' + r), x.drop (i' + r + 1)) := by
          rw [splitParams_slash_eq x r hsemi hslash hlx, hfx]
        rw [hx]
        rcases firstIdxOf_some (x.drop r) ';' i' hfi' with ⟨hta, htd, htl⟩
        have hi'pos : 1 ≤ i' := by
          rcases Nat.eq_zero_or_pos i' with h0 | h0
          · exfalso
            subst h0
            have hh : x.drop r = ';' :: (x.drop r).drop 1 := by simpa using htd
            rw [hdr] at hh
            simp at hh
          · exact h0
        have hxdrop : x.drop (i' + r) = ';' :: x.drop (i' + r + 1) := by
          have h1 : (x.drop r).drop i' = x.drop (i' + r) := by
            rw [List.drop_drop]
            congr 1
            omega
          have h2 : (x.drop r).drop (i' + 1) = x.drop (i' + 1 + r) := by
            rw [List.drop_drop]
            congr 1
            omega
          rw [h1, h2] at htd
          have h4 : i' + 1 + r = i' + r + 1 := by omega
          rw [htd, h4]
        have hdecomp : x = x.take (i' + r) ++ ';' :: x.drop (i' + r + 1) :=
          drop_cons_decomp x (i' + r) ';' hxdrop
        have hb_nslash : ∀ c ∈ x.drop (i' + r + 1), c ≠ '/' := by
          intro c hc
          apply hnr c
          have hdd : (x.drop (r + 1)).drop i' = x.drop (i' + r + 1) := by
            rw [List.drop_drop]
            congr 1
            omega
          rw [← hdd] at hc
          exact List.drop_subset _ _ hc
        have hcons_nslash : ∀ c ∈ ';' :: x.drop (i' + r + 1), c ≠ '/' := by
          intro c hc
          rcases List.mem_cons.mp hc with rfl | hc
          · decide
          · exact hb_nslash c hc
        have hlast_a : lastIdxOf '/' (x.take (i' + r)) = some r := by
          have h1 := hlx
          rw [hdecomp] at h1
          rw [lastIdxOf_append '/' _ _,
            (lastIdxOf_none_iff '/' _).mpr hcons_nslash] at h1
          exact h1
        have hseg2 : (x.take (i' + r)).drop (r + 1) = (x.drop (r + 1)).take (i' - 1) := by
          rw [List.drop_take]
          congr 1
          omega
        have hcons : (x.drop r).take i' = '/' :: (x.drop (r + 1)).take (i' - 1) := by
          rw [hdr]
          cases i' with
          | zero => omega
          | succ k =>
            rw [List.take_succ_cons]
            simp
        refine ⟨⟨?_, ?_⟩, hb_nslash, fun c hc => List.take_subset _ _ hc,
          fun c hc => List.drop_subset _ _ hc⟩
        · intro r₂ hr₂ c hc
          rw [hlast_a] at hr₂
          injection hr₂ with h2
          subst h2
          apply hta c
          rw [hcons]
          apply List.mem_cons_of_mem
          rw [← hseg2]
          exact hc
        · intro hcon
          rw [hlast_a] at hcon
          exact Option.noConfusion hcon
  · have hslashF : x.any (· = '/') = false := Bool.eq_false_iff.mpr hslash
    have hmem : '/' ∉ x := by simpa using hslash
    rcases hfx : firstIdxOf ';' x with _ | i
    · exfalso
      rcases List.any_eq_true.mp hsemi with ⟨c, hc, hceq⟩
      have := (firstIdxOf_none_iff ';' x).mp hfx c hc
      simp at hceq
      exact this hceq
    · have hx : splitParams x = (x.take i, x.drop (i + 1)) := by
        rw [splitParams_noslash_eq x hsemi hslashF, hfx]
      rw [hx]
      rcases firstIdxOf_some x ';' i hfx with ⟨hta, _, _⟩
      refine ⟨?_, ?_, fun c hc => List.take_subset _ _ hc,
        fun c hc => List.drop_subset _ _ hc⟩
      · refine ⟨?_, fun _ => hta⟩
        intro r₂ hr₂
        exfalso
        have hnone : lastIdxOf '/' (x.take i) = none := by
          apply (lastIdxOf_none_iff '/' _).mpr
          intro c hc hceq
          exact hmem (hceq ▸ List.take_subset _ _ hc)
        rw [hnone] at hr₂
        exact Option.noConfusion hr₂
      · intro c hc hceq
        exact hmem (hceq ▸ List.drop_subset _ _ hc)

/-- Re-parsing `path;params` as rebuilt by `urlunparse` recovers the
components, for the shapes `normalize_url` actually emits: a `/`-headed path
whose last segment is `;`-free, and `/`-free params. -/
theorem splitParams_reconstruct (p q p' : List Char) (hp : p = '/' :: p')
    (htsf : tailSemiFree p) (hq : ∀ c ∈ q, c ≠ '/') :
    splitParams (joinParams (p, q)) = (p, q) := by
  have hmem : '/' ∈ p := by rw [hp]; exact List.mem_cons_self _ _
  rcases hlp : lastIdxOf '/' p with _ | r
  · exact absurd ((lastIdxOf_none_iff '/' p).mp hlp '/' hmem) (by simp)
  rcases lastIdxOf_some p '/' r hlp with ⟨hdr, _, _⟩
  have hna : ∀ c ∈ p.drop r, c ≠ ';' := by
    intro c hc
    rw [hdr] at hc
    rcases List.mem_cons.mp hc with rfl | hc
    · decide
    · exact htsf.1 r hlp c hc
  by_cases hq0 : q = []
  · subst hq0
    have hj : joinParams (p, []) = p := rfl
    rw [hj]
    by_cases hsemi : p.any (· = ';') = true
    · have hslash : p.any (· = '/') = true :=
        List.any_eq_true.mpr ⟨'/', hmem, by decide⟩
      have hff : firstIdxFrom ';' r p = none := by
        unfold firstIdxFrom
        rw [(firstIdxOf_none_iff ';' _).mpr hna]
        rfl
      rw [splitParams_slash_eq p r hsemi hslash hlp, hff]
    · unfold splitParams
      rw [if_neg (by simpa using hsemi)]
  · have hj : joinParams (p, q) = p ++ ';' :: q := by
      unfold joinParams
      rw [if_neg hq0]
    rw [hj]
    exact splitParams_A p q r hlp hq hna

theorem splitSchemeRest_eq_none (l : List Char) (h : firstIdxOf ':' l = none) :
    splitSchemeRest l = ([], l) := by
  unfold splitSchemeRest
  rw [h]

theorem splitSchemeRest_eq_some (l : List Char) (i : Nat)
    (h : firstIdxOf ':' l = some i) :
    splitSchemeRest l =
      if 0 < i && (match l.head? with | some c => isAsciiAlpha c | none => false) &&
          (l.take i).all isSchemeChar then
        ((l.take i).map pyLowerChar, l.drop (i + 1))
      else ([], l) := by
  unfold splitSchemeRest
  rw [h]

theorem splitSchemeRest_snd_subset (l : List Char) :
    ∀ c ∈ (splitSchemeRest l).2, c ∈ l := by
  intro c hc
  rcases hio : firstIdxOf ':' l with _ | i
  · rw [splitSchemeRest_eq_none l hio] at hc
    exact hc
  · rw [splitSchemeRest_eq_some l i hio] at hc
    by_cases hcond : (0 < i &&
        (match l.head? with | some c => isAsciiAlpha c | none => false) &&
        (l.take i).all isSchemeChar) = true
    · rw [if_pos hcond] at hc
      exact List.drop_subset _ _ hc
    · rw [if_neg hcond] at hc
      exact hc

theorem splitNetlocRest_fst_facts (l : List Char) :
    ∀ c ∈ (splitNetlocRest l).1, notNetlocDelim c = true ∧ c ∈ l := by
  intro c hc
  unfold splitNetlocRest at hc
  by_cases h2 : l.take 2 = ['/', '/']
  · rw [if_pos h2] at hc
    refine ⟨List.mem_takeWhile_imp hc, ?_⟩
    exact List.drop_subset _ _ ((List.takeWhile_sublist _).subset hc)
  · rw [if_neg h2] at hc
    exact absurd hc (List.not_mem_nil c)

theorem splitNetlocRest_snd_subset (l : List Char) :
    ∀ c ∈ (splitNetlocRest l).2, c ∈ l := by
  intro c hc
  unfold splitNetlocRest at hc
  by_cases h2 : l.take 2 = ['/', '/']
  · rw [if_pos h2] at hc
    exact List.drop_subset _ _ ((List.dropWhile_sublist _).subset hc)
  · rw [if_neg h2] at hc
    exact hc

theorem splitAtFirst_fst_facts (t : Char) (l : List Char) :
    ∀ c ∈ (splitAtFirst t l).1, c ≠ t ∧ c ∈ l := by
  intro c hc
  have hc' : c ∈ l.takeWhile fun d => !(d = t) := hc
  have h1 := List.mem_takeWhile_imp hc'
  exact ⟨by simpa using h1, (List.takeWhile_sublist _).subset hc'⟩

theorem splitAtFirst_snd_subset (t : Char) (l : List Char) :
    ∀ c ∈ (splitAtFirst t l).2, c ∈ l :=
  fun _ hc => (List.dropWhile_sublist _).subset (List.drop_subset _ _ hc)

/-- Structure of the components `urlparse` returns: the netloc is free of
`/?#`, path and params of `#?`, the query of `#`; nothing contains a tab,
carriage return or newline; params are `/`-free and the path keeps no `;`
after its last `/`. -/
theorem pyUrlparse_facts (v : List Char) :
    (∀ c ∈ (pyUrlparse v).netloc, notNetlocDelim c = true ∧
      isUnsafeUrlChar c = false) ∧
    (∀ c ∈ (pyUrlparse v).path, c ≠ '#' ∧ c ≠ '?' ∧ isUnsafeUrlChar c = false) ∧
    (∀ c ∈ (pyUrlparse v).params, c ≠ '#' ∧ c ≠ '?' ∧ c ≠ '/' ∧
      isUnsafeUrlChar c = false) ∧
    (∀ c ∈ (pyUrlparse v).query, c ≠ '#' ∧ isUnsafeUrlChar c = false) ∧
    tailSemiFree (pyUrlparse v).path := by
  have hsafe : ∀ c ∈ cleanUrl v, isUnsafeUrlChar c = false := by
    intro c hc
    unfold cleanUrl at hc
    have h2 := (List.mem_filter.mp hc).2
    simpa using h2
  have hrest : ∀ c ∈ (splitSchemeRest (cleanUrl v)).2, c ∈ cleanUrl v :=
    splitSchemeRest_snd_subset (cleanUrl v)
  have hAN : ∀ c ∈ (splitNetlocRest (splitSchemeRest (cleanUrl v)).2).2,
      c ∈ cleanUrl v :=
    fun c hc => hrest c (splitNetlocRest_snd_subset _ c hc)
  have hBF : ∀ c ∈ (splitAtFirst '#'
      (splitNetlocRest (splitSchemeRest (cleanUrl v)).2).2).1,
      c ≠ '#' ∧ c ∈ cleanUrl v := by
    intro c hc
    rcases splitAtFirst_fst_facts '#' _ c hc with ⟨h1, h2⟩
    exact ⟨h1, hAN c h2⟩
  have hSP : ∀ c ∈ (splitAtFirst '?' (splitAtFirst '#'
      (splitNetlocRest (splitSchemeRest (cleanUrl v)).2).2).1).1,
      c ≠ '#' ∧ c ≠ '?' ∧ isUnsafeUrlChar c = false := by
    intro c hc
    rcases splitAtFirst_fst_facts '?' _ c hc with ⟨h1, h2⟩
    rcases hBF c h2 with ⟨h3, h4⟩
    exact ⟨h3, h1, hsafe c h4⟩
  obtain ⟨htsf, hpar, hmp, hmq⟩ := splitParams_facts (splitAtFirst '?'
    (splitAtFirst '#' (splitNetlocRest (splitSchemeRest (cleanUrl v)).2).2).1).1
  refine ⟨?_, ?_, ?_, ?_, htsf⟩
  · intro c hc
    rcases splitNetlocRest_fst_facts _ c hc with ⟨h1, h2⟩
    exact ⟨h1, hsafe c (hrest c h2)⟩
  · intro c hc
    exact hSP c (hmp c hc)
  · intro c hc
    rcases hSP c (hmq c hc) with ⟨h1, h2, h3⟩
    exact ⟨h1, h2, hpar c hc, h3⟩
  · intro c hc
    have h2 := splitAtFirst_snd_subset '?' _ c hc
    rcases hBF c h2 with ⟨h3, h4⟩
    exact ⟨h3, hsafe c h4⟩

/-- The string `urlunparse` rebuilds for a present netloc, empty fragment and
non-empty scheme and path. -/
theorem pyUrlunparse_shape (sch nl p q qu : List Char) (hs : sch ≠ [])
    (hn : nl ≠ []) (hp : p ≠ []) :
    pyUrlunparse sch nl p q qu [] =
      sch ++ ':' :: '/' :: '/' ::
        (nl ++ ((if (joinParams (p, q)).head? = some '/' then joinParams (p, q)
          else '/' :: joinParams (p, q)) ++
          (if qu = [] then [] else '?' :: qu))) := by
  unfold pyUrlunparse
  beta_reduce
  rw [if_pos (show ([] : List Char) = [] from rfl), if_pos (Or.inl hn), if_neg hs]
  by_cases hh : (joinParams (p, q)).head? = some '/'
  · rw [if_neg (show ¬(joinParams (p, q) ≠ [] ∧
        (joinParams (p, q)).head? ≠ some '/') from fun hcon => hcon.2 hh),
      if_pos (show (joinParams (p, q)).head? = some '/' from hh)]
    by_cases hqu : qu = []
    · rw [if_pos hqu, if_pos hqu, List.append_nil]
      simp
    · rw [if_neg hqu, if_neg hqu]
      simp [List.append_assoc]
  · rw [if_pos (show joinParams (p, q) ≠ [] ∧
        (joinParams (p, q)).head? ≠ some '/' from ⟨joinParams_ne_nil p q hp, hh⟩),
      if_neg (show ¬(joinParams (p, q)).head? = some '/' from hh)]
    by_cases hqu : qu = []
    · rw [if_pos hqu, if_pos hqu, List.append_nil]
      simp
    · rw [if_neg hqu, if_neg hqu]
      simp [List.append_assoc]

/-- Parsing the exact string shape `normalize_url` emits recovers its
components. -/
theorem pyUrlsplit_reconstruct (sch nl b₀ qu : List Char)
    (hsch : sch = "http".toList ∨ sch = "https".toList)
    (hnl : ∀ c ∈ nl, notNetlocDelim c = true)
    (hnls : ∀ c ∈ nl, isUnsafeUrlChar c = false)
    (hbs : ∀ c ∈ '/' :: b₀, isUnsafeUrlChar c = false)
    (hqs : ∀ c ∈ qu, isUnsafeUrlChar c = false)
    (hb1 : ∀ c ∈ '/' :: b₀, c ≠ '#') (hb2 : ∀ c ∈ '/' :: b₀, c ≠ '?')
    (hq1 : ∀ c ∈ qu, c ≠ '#') :
    pyUrlsplit (sch ++ ':' :: '/' :: '/' ::
        (nl ++ '/' :: (b₀ ++ (if qu = [] then [] else '?' :: qu)))) =
      ⟨sch, nl, '/' :: b₀, qu, []⟩ := by
  have hqp1 : ∀ c ∈ (if qu = [] then [] else '?' :: qu), c ≠ '#' := by
    by_cases hqu : qu = []
    · rw [if_pos hqu]; simp
    · rw [if_neg hqu]
      intro c hc
      rcases List.mem_cons.mp hc with rfl | hc
      · decide
      · exact hq1 c hc
  have hqps : ∀ c ∈ (if qu = [] then [] else '?' :: qu),
      isUnsafeUrlChar c = false := by
    by_cases hqu : qu = []
    · rw [if_pos hqu]; simp
    · rw [if_neg hqu]
      intro c hc
      rcases List.mem_cons.mp hc with rfl | hc
      · decide
      · exact hqs c hc
  have hclean : cleanUrl (sch ++ ':' :: '/' :: '/' ::
      (nl ++ '/' :: (b₀ ++ (if qu = [] then [] else '?' :: qu)))) =
      sch ++ ':' :: '/' :: '/' ::
        (nl ++ '/' :: (b₀ ++ (if qu = [] then [] else '?' :: qu))) := by
    apply cleanUrl_eq_self
    · intro c hc
      rcases List.mem_append.mp hc with hc | hc
      · rcases hsch with rfl | rfl
        · exact (by decide : ∀ d, d ∈ "http".toList → isUnsafeUrlChar d = false) c hc
        · exact (by decide : ∀ d, d ∈ "https".toList → isUnsafeUrlChar d = false) c hc
      · rcases List.mem_cons.mp hc with rfl | hc
        · decide
        · rcases List.mem_cons.mp hc with rfl | hc
          · decide
          · rcases List.mem_cons.mp hc with rfl | hc
            · decide
            · rcases List.mem_append.mp hc with hc | hc
              · exact hnls c hc
              · rcases List.mem_cons.mp hc with rfl | hc
                · decide
                · rcases List.mem_append.mp hc with hc | hc
                  · exact hbs c (List.mem_cons_of_mem _ hc)
                  · exact hqps c hc
    · intro c hc
      rcases hsch with rfl | rfl
      · have h2 : c = 'h' := by
          have h3 : ("http".toList ++ ':' :: '/' :: '/' ::
              (nl ++ '/' :: (b₀ ++ (if qu = [] then [] else '?' :: qu)))).head? =
              some 'h' := rfl
          rw [h3] at hc
          injection hc with h4
          exact h4.symm
        subst h2
        decide
      · have h2 : c = 'h' := by
          have h3 : ("https".toList ++ ':' :: '/' :: '/' ::
              (nl ++ '/' :: (b₀ ++ (if qu = [] then [] else '?' :: qu)))).head? =
              some 'h' := rfl
          rw [h3] at hc
          injection hc with h4
          exact h4.symm
        subst h2
        decide
  have hscheme : splitSchemeRest (sch ++ ':' :: '/' :: '/' ::
      (nl ++ '/' :: (b₀ ++ (if qu = [] then [] else '?' :: qu)))) =
      (sch, '/' :: '/' :: (nl ++ '/' :: (b₀ ++ (if qu = [] then [] else '?' :: qu)))) := by
    rcases hsch with rfl | rfl
    · exact splitSchemeRest_http _
    · exact splitSchemeRest_https _
  have hnetloc : splitNetlocRest ('/' :: '/' ::
      (nl ++ '/' :: (b₀ ++ (if qu = [] then [] else '?' :: qu)))) =
      (nl, '/' :: (b₀ ++ (if qu = [] then [] else '?' :: qu))) :=
    splitNetlocRest_eq nl _ '/' hnl (by decide)
  have hfrag : splitAtFirst '#' ('/' :: (b₀ ++ (if qu = [] then [] else '?' :: qu))) =
      ('/' :: (b₀ ++ (if qu = [] then [] else '?' :: qu)), []) := by
    apply splitAtFirst_none
    intro c hc
    rcases List.mem_cons.mp hc with rfl | hc
    · decide
    · rcases List.mem_append.mp hc with hc | hc
      · exact hb1 c (List.mem_cons_of_mem _ hc)
      · exact hqp1 c hc
  have hquery : splitAtFirst '?' ('/' :: (b₀ ++ (if qu = [] then [] else '?' :: qu))) =
      ('/' :: b₀, qu) := by
    by_cases hqu : qu = []
    · subst hqu
      rw [if_pos rfl, List.append_nil]
      exact splitAtFirst_none '?' _ hb2
    · rw [if_neg hqu]
      have hform : '/' :: (b₀ ++ '?' :: qu) = ('/' :: b₀) ++ '?' :: qu := rfl
      rw [hform]
      exact splitAtFirst_found '?' _ _ hb2
  have e1 : (pyUrlsplit (sch ++ ':' :: '/' :: '/' ::
      (nl ++ '/' :: (b₀ ++ (if qu = [] then [] else '?' :: qu))))).scheme = sch := by
    show (splitSchemeRest (cleanUrl _)).1 = sch
    rw [hclean, hscheme]
  have e2 : (pyUrlsplit (sch ++ ':' :: '/' :: '/' ::
      (nl ++ '/' :: (b₀ ++ (if qu = [] then [] else '?' :: qu))))).netloc = nl := by
    show (splitNetlocRest (splitSchemeRest (cleanUrl _)).2).1 = nl
    rw [hclean, hscheme]
    show (splitNetlocRest ('/' :: '/' ::
      (nl ++ '/' :: (b₀ ++ (if qu = [] then [] else '?' :: qu))))).1 = nl
    rw [hnetloc]
  have e3 : (pyUrlsplit (sch ++ ':' :: '/' :: '/' ::
      (nl ++ '/' :: (b₀ ++ (if qu = [] then [] else '?' :: qu))))).path = '/' :: b₀ := by
    show (splitAtFirst '?' (splitAtFirst '#'
      (splitNetlocRest (splitSchemeRest (cleanUrl _)).2).2).1).1 = '/' :: b₀
    rw [hclean, hscheme]
    show (splitAtFirst '?' (splitAtFirst '#' (splitNetlocRest ('/' :: '/' ::
      (nl ++ '/' :: (b₀ ++ (if qu = [] then [] else '?' :: qu))))).2).1).1 = '/' :: b₀
    rw [hnetloc]
    show (splitAtFirst '?' (splitAtFirst '#' ('/' ::
      (b₀ ++ (if qu = [] then [] else '?' :: qu)))).1).1 = '/' :: b₀
    rw [hfrag]
    show (splitAtFirst '?' ('/' ::
      (b₀ ++ (if qu = [] then [] else '?' :: qu)))).1 = '/' :: b₀
    rw [hquery]
  have e4 : (pyUrlsplit (sch ++ ':' :: '/' :: '/' ::
      (nl ++ '/' :: (b₀ ++ (if qu = [] then [] else '?' :: qu))))).query = qu := by
    show (splitAtFirst '?' (splitAtFirst '#'
      (splitNetlocRest (splitSchemeRest (cleanUrl _)).2).2).1).2 = qu
    rw [hclean, hscheme]
    show (splitAtFirst '?' (splitAtFirst '#' (splitNetlocRest ('/' :: '/' ::
      (nl ++ '/' :: (b₀ ++ (if qu = [] then [] else '?' :: qu))))).2).1).2 = qu
    rw [hnetloc]
    show (splitAtFirst '?' (splitAtFirst '#' ('/' ::
      (b₀ ++ (if qu = [] then [] else '?' :: qu)))).1).2 = qu
    rw [hfrag]
    show (splitAtFirst '?' ('/' ::
      (b₀ ++ (if qu = [] then [] else '?' :: qu)))).2 = qu
    rw [hquery]
  have e5 : (pyUrlsplit (sch ++ ':' :: '/' :: '/' ::
      (nl ++ '/' :: (b₀ ++ (if qu = [] then [] else '?' :: qu))))).fragment = [] := by
    show (splitAtFirst '#'
      (splitNetlocRest (splitSchemeRest (cleanUrl _)).2).2).2 = []
    rw [hclean, hscheme]
    show (splitAtFirst '#' (splitNetlocRest ('/' :: '/' ::
      (nl ++ '/' :: (b₀ ++ (if qu = [] then [] else '?' :: qu))))).2).2 = []
    rw [hnetloc]
    show (splitAtFirst '#' ('/' ::
      (b₀ ++ (if qu = [] then [] else '?' :: qu)))).2 = []
    rw [hfrag]
  rw [show pyUrlsplit (sch ++ ':' :: '/' :: '/' ::
      (nl ++ '/' :: (b₀ ++ (if qu = [] then [] else '?' :: qu)))) =
    ⟨(pyUrlsplit (sch ++ ':' :: '/' :: '/' ::
      (nl ++ '/' :: (b₀ ++ (if qu = [] then [] else '?' :: qu))))).scheme,
     (pyUrlsplit (sch ++ ':' :: '/' :: '/' ::
      (nl ++ '/' :: (b₀ ++ (if qu = [] then [] else '?' :: qu))))).netloc,
     (pyUrlsplit (sch ++ ':' :: '/' :: '/' ::
      (nl ++ '/' :: (b₀ ++ (if qu = [] then [] else '?' :: qu))))).path,
     (pyUrlsplit (sch ++ ':' :: '/' :: '/' ::
      (nl ++ '/' :: (b₀ ++ (if qu = [] then [] else '?' :: qu))))).query,
     (pyUrlsplit (sch ++ ':' :: '/' :: '/' ::
      (nl ++ '/' :: (b₀ ++ (if qu = [] then [] else '?' :: qu))))).fragment⟩ from rfl,
    e1, e2, e3, e4, e5]

theorem pyUrlparse_of_split (u sc n pa qy fr : List Char)
    (h : pyUrlsplit u = ⟨sc, n, pa, qy, fr⟩) :
    pyUrlparse u = ⟨sc, n, (splitParams pa).1, (splitParams pa).2, qy, fr⟩ := by
  unfold pyUrlparse
  rw [h]

/-- Core of the idempotence argument: a string of exactly the shape
`normalize_url` rebuilds, whose components satisfy the parse invariants,
is a fixed point of `normalize_url` as long as stripping leaves it alone. -/
theorem normalize_fixed_core (sch NL b₀ p₂ q₀ qu : List Char)
    (hsch : sch = "http".toList ∨ sch = "https".toList)
    (hNLne : NL ≠ [])
    (hNLd : ∀ c ∈ NL, notNetlocDelim c = true)
    (hNLs : ∀ c ∈ NL, isUnsafeUrlChar c = false)
    (hsp : splitParams ('/' :: b₀) = (p₂, q₀))
    (hp₂ne : p₂ ≠ [])
    (hjoin₂ : joinParams (p₂, q₀) = '/' :: b₀)
    (hb : ∀ c ∈ '/' :: b₀, c ≠ '#' ∧ c ≠ '?' ∧ isUnsafeUrlChar c = false)
    (hQu : ∀ c ∈ qu, c ≠ '#' ∧ isUnsafeUrlChar c = false)
    (hstrip : pyStrip (sch ++ ':' :: '/' :: '/' :: (NL.map pyLowerChar ++ '/' ::
        (b₀ ++ (if qu = [] then [] else '?' :: qu)))) =
      sch ++ ':' :: '/' :: '/' :: (NL.map pyLowerChar ++ '/' ::
        (b₀ ++ (if qu = [] then [] else '?' :: qu)))) :
    normalize_url (String.mk (sch ++ ':' :: '/' :: '/' ::
        (NL.map pyLowerChar ++ '/' ::
          (b₀ ++ (if qu = [] then [] else '?' :: qu))))) =
      Except.ok (String.mk (sch ++ ':' :: '/' :: '/' ::
        (NL.map pyLowerChar ++ '/' ::
          (b₀ ++ (if qu = [] then [] else '?' :: qu))))) := by
  have hscne : sch ≠ [] := by rcases hsch with rfl | rfl <;> decide
  have hNLMd : ∀ c ∈ NL.map pyLowerChar, notNetlocDelim c = true := by
    intro c hc
    rcases List.mem_map.mp hc with ⟨d, hd, rfl⟩
    exact pyLower_notNetlocDelim d (hNLd d hd)
  have hNLMs : ∀ c ∈ NL.map pyLowerChar, isUnsafeUrlChar c = false := by
    intro c hc
    rcases List.mem_map.mp hc with ⟨d, hd, rfl⟩
    exact pyLower_not_unsafe d (hNLs d hd)
  have hsplit := pyUrlsplit_reconstruct sch (NL.map pyLowerChar) b₀ qu hsch hNLMd
    hNLMs (fun c hc => (hb c hc).2.2) (fun c hc => (hQu c hc).2)
    (fun c hc => (hb c hc).1) (fun c hc => (hb c hc).2.1)
    (fun c hc => (hQu c hc).1)
  have hparse := pyUrlparse_of_split _ sch (NL.map pyLowerChar) ('/' :: b₀) qu []
    hsplit
  have hsp1 : (splitParams ('/' :: b₀)).1 = p₂ := by rw [hsp]
  have hsp2 : (splitParams ('/' :: b₀)).2 = q₀ := by rw [hsp]
  rw [hsp1, hsp2] at hparse
  have htl : (String.mk (sch ++ ':' :: '/' :: '/' :: (NL.map pyLowerChar ++ '/' ::
      (b₀ ++ (if qu = [] then [] else '?' :: qu))))).toList =
      sch ++ ':' :: '/' :: '/' :: (NL.map pyLowerChar ++ '/' ::
      (b₀ ++ (if qu = [] then [] else '?' :: qu))) := rfl
  have hLne : sch ++ ':' :: '/' :: '/' :: (NL.map pyLowerChar ++ '/' ::
      (b₀ ++ (if qu = [] then [] else '?' :: qu))) ≠ [] := by
    rcases hsch with rfl | rfl <;> exact fun hcon => List.cons_ne_nil 'h' _ hcon
  have htake : (sch ++ ':' :: '/' :: '/' :: (NL.map pyLowerChar ++ '/' ::
      (b₀ ++ (if qu = [] then [] else '?' :: qu)))).take 4 =
      ['h', 't', 't', 'p'] := by
    rcases hsch with rfl | rfl <;> rfl
  have hwww : removePrefixWWW (sch ++ ':' :: '/' :: '/' ::
      (NL.map pyLowerChar ++ '/' :: (b₀ ++ (if qu = [] then [] else '?' :: qu)))) =
      sch ++ ':' :: '/' :: '/' ::
        (NL.map pyLowerChar ++ '/' :: (b₀ ++ (if qu = [] then [] else '?' :: qu))) := by
    unfold removePrefixWWW
    rw [if_neg (by rw [htake]; decide)]
  have hsne : ¬((pyUrlparse (sch ++ ':' :: '/' :: '/' ::
      (NL.map pyLowerChar ++ '/' ::
        (b₀ ++ (if qu = [] then [] else '?' :: qu))))).scheme = []) := by
    rw [hparse]
    exact hscne
  have hNLM : NL.map pyLowerChar ≠ [] := by simpa using hNLne
  unfold normalize_url
  rw [htl, if_neg hLne, hstrip, hwww, if_neg hsne, hparse]
  unfold normalizeParsed
  have hcond : (⟨sch, NL.map pyLowerChar, p₂, q₀, qu, ([] : List Char)⟩ :
      PyParse).scheme = "http".toList ∨
      (⟨sch, NL.map pyLowerChar, p₂, q₀, qu, ([] : List Char)⟩ :
        PyParse).scheme = "https".toList := hsch
  have hncond : ¬((⟨sch, NL.map pyLowerChar, p₂, q₀, qu, ([] : List Char)⟩ :
      PyParse).netloc = []) := hNLM
  rw [if_pos hcond, if_neg hncond]
  refine congrArg Except.ok (congrArg String.mk ?_)
  show pyUrlunparse sch ((NL.map pyLowerChar).map pyLowerChar)
      (if p₂ = [] then ['/'] else p₂) q₀ qu [] =
    sch ++ ':' :: '/' :: '/' :: (NL.map pyLowerChar ++ '/' ::
      (b₀ ++ (if qu = [] then [] else '?' :: qu)))
  rw [map_pyLower_idem, if_neg hp₂ne,
    pyUrlunparse_shape sch (NL.map pyLowerChar) p₂ q₀ qu hscne hNLM hp₂ne, hjoin₂,
    if_pos (show ('/' :: b₀).head? = some '/' from rfl), List.cons_append]

/-- Any string built by the reconstruction step of `normalize_url` from
components satisfying the parse invariants is a fixed point of
`normalize_url`, provided stripping leaves it unchanged. -/
theorem normalize_output_fixed (sch NL p' q₀ qu : List Char)
    (hsch : sch = "http".toList ∨ sch = "https".toList)
    (hNLne : NL ≠ [])
    (hNLd : ∀ c ∈ NL, notNetlocDelim c = true)
    (hNLs : ∀ c ∈ NL, isUnsafeUrlChar c = false)
    (hp'ne : p' ≠ [])
    (hTSF : tailSemiFree p')
    (hPa : ∀ c ∈ p', c ≠ '#' ∧ c ≠ '?' ∧ isUnsafeUrlChar c = false)
    (hPr : ∀ c ∈ q₀, c ≠ '#' ∧ c ≠ '?' ∧ c ≠ '/' ∧ isUnsafeUrlChar c = false)
    (hQu : ∀ c ∈ qu, c ≠ '#' ∧ isUnsafeUrlChar c = false)
    (hstrip : pyStrip (String.mk (pyUrlunparse sch (NL.map pyLowerChar)
        p' q₀ qu [])).toList =
      (String.mk (pyUrlunparse sch (NL.map pyLowerChar) p' q₀ qu [])).toList) :
    normalize_url (String.mk (pyUrlunparse sch (NL.map pyLowerChar) p' q₀ qu [])) =
      Except.ok (String.mk (pyUrlunparse sch (NL.map pyLowerChar) p' q₀ qu [])) := by
  have hscne : sch ≠ [] := by rcases hsch with rfl | rfl <;> decide
  have hNLM : NL.map pyLowerChar ≠ [] := by simpa using hNLne
  have hshape := pyUrlunparse_shape sch (NL.map pyLowerChar) p' q₀ qu hscne hNLM hp'ne
  have hstrip' : pyStrip (pyUrlunparse sch (NL.map pyLowerChar) p' q₀ qu []) =
      pyUrlunparse sch (NL.map pyLowerChar) p' q₀ qu [] := hstrip
  obtain ⟨c, p'', rfl⟩ : ∃ c p'', p' = c :: p'' := by
    cases p' with
    | nil => exact absurd rfl hp'ne
    | cons c p'' => exact ⟨c, p'', rfl⟩
  have hq : ∀ d ∈ q₀, d ≠ '/' := fun d hd => (hPr d hd).2.2.1
  by_cases hh : (joinParams (c :: p'', q₀)).head? = some '/'
  · have hc : c = '/' := by
      rw [joinParams_cons] at hh
      simpa using hh
    subst hc
    have hbodyif : (if (joinParams ('/' :: p'', q₀)).head? = some '/' then
        joinParams ('/' :: p'', q₀) else '/' :: joinParams ('/' :: p'', q₀)) =
        '/' :: joinParams (p'', q₀) := by
      rw [if_pos hh, joinParams_cons]
    have hsp : splitParams ('/' :: joinParams (p'', q₀)) = ('/' :: p'', q₀) := by
      have h1 := splitParams_reconstruct ('/' :: p'') q₀ p'' rfl hTSF hq
      rw [joinParams_cons] at h1
      exact h1
    have hjoin₂ : joinParams ('/' :: p'', q₀) = '/' :: joinParams (p'', q₀) :=
      joinParams_cons '/' p'' q₀
    have hb : ∀ d ∈ '/' :: joinParams (p'', q₀),
        d ≠ '#' ∧ d ≠ '?' ∧ isUnsafeUrlChar d = false := by
      intro d hd
      rcases List.mem_cons.mp hd with rfl | hd
      · exact ⟨by decide, by decide, by decide⟩
      · rcases mem_joinParams p'' q₀ d hd with hd | hd | hd
        · exact hPa d (List.mem_cons_of_mem '/' hd)
        · subst hd
          exact ⟨by decide, by decide, by decide⟩
        · exact ⟨(hPr d hd).1, (hPr d hd).2.1, (hPr d hd).2.2.2⟩
    rw [hshape, hbodyif, List.cons_append] at hstrip' ⊢
    exact normalize_fixed_core sch NL (joinParams (p'', q₀)) ('/' :: p'') q₀ qu
      hsch hNLne hNLd hNLs hsp (by simp) hjoin₂ hb hQu hstrip'
  · have hbodyif : (if (joinParams (c :: p'', q₀)).head? = some '/' then
        joinParams (c :: p'', q₀) else '/' :: joinParams (c :: p'', q₀)) =
        '/' :: joinParams (c :: p'', q₀) := by
      rw [if_neg hh]
    have hsp : splitParams ('/' :: joinParams (c :: p'', q₀)) =
        ('/' :: c :: p'', q₀) := by
      have h1 := splitParams_reconstruct ('/' :: c :: p'') q₀ (c :: p'') rfl
        (tailSemiFree_cons_slash _ hTSF) hq
      rw [joinParams_cons] at h1
      exact h1
    have hjoin₂ : joinParams ('/' :: c :: p'', q₀) = '/' :: joinParams (c :: p'', q₀) :=
      joinParams_cons '/' (c :: p'') q₀
    have hb : ∀ d ∈ '/' :: joinParams (c :: p'', q₀),
        d ≠ '#' ∧ d ≠ '?' ∧ isUnsafeUrlChar d = false := by
      intro d hd
      rcases List.mem_cons.mp hd with rfl | hd
      · exact ⟨by decide, by decide, by decide⟩
      · rcases mem_joinParams (c :: p'') q₀ d hd with hd | hd | hd
        · exact hPa d hd
        · subst hd
          exact ⟨by decide, by decide, by decide⟩
        · exact ⟨(hPr d hd).1, (hPr d hd).2.1, (hPr d hd).2.2.2⟩
    rw [hshape, hbodyif, List.cons_append] at hstrip' ⊢
    exact normalize_fixed_core sch NL (joinParams (c :: p'', q₀)) ('/' :: c :: p'')
      q₀ qu hsch hNLne hNLd hNLs hsp (by simp) hjoin₂ hb hQu hstrip'

/-- Every successful output of the reconstruction step is a fixed point of
`normalize_url`, provided stripping leaves it unchanged. -/
theorem normalizeParsed_fixed (v : List Char) (t : String)
    (h : normalizeParsed (pyUrlparse v) = Except.ok t)
    (hstrip : pyStrip t.toList = t.toList) :
    normalize_url t = Except.ok t := by
  obtain ⟨hNL, hPath, hParams, hQuery, hTSF⟩ := pyUrlparse_facts v
  unfold normalizeParsed at h
  by_cases hs : (pyUrlparse v).scheme = "http".toList ∨
      (pyUrlparse v).scheme = "https".toList
  swap
  · rw [if_neg hs] at h
    exact Except.noConfusion h
  rw [if_pos hs] at h
  by_cases hn : (pyUrlparse v).netloc = []
  · rw [if_pos hn] at h
    exact Except.noConfusion h
  rw [if_neg hn] at h
  have ht : String.mk (pyUrlunparse (pyUrlparse v).scheme
      ((pyUrlparse v).netloc.map pyLowerChar)
      (if (pyUrlparse v).path = [] then ['/'] else (pyUrlparse v).path)
      (pyUrlparse v).params (pyUrlparse v).query []) = t := by
    injection h
  subst ht
  have hp'ne : (if (pyUrlparse v).path = [] then ['/'] else (pyUrlparse v).path) ≠ [] := by
    by_cases hpa : (pyUrlparse v).path = []
    · rw [if_pos hpa]; simp
    · rw [if_neg hpa]; exact hpa
  have hTSF' : tailSemiFree
      (if (pyUrlparse v).path = [] then ['/'] else (pyUrlparse v).path) := by
    by_cases hpa : (pyUrlparse v).path = []
    · rw [if_pos hpa]; exact tailSemiFree_slash
    · rw [if_neg hpa]; exact hTSF
  have hPa' : ∀ c ∈ (if (pyUrlparse v).path = [] then ['/'] else (pyUrlparse v).path),
      c ≠ '#' ∧ c ≠ '?' ∧ isUnsafeUrlChar c = false := by
    by_cases hpa : (pyUrlparse v).path = []
    · rw [if_pos hpa]
      intro c hc
      have hc' : c = '/' := by simpa using hc
      subst hc'
      exact ⟨by decide, by decide, by decide⟩
    · rw [if_neg hpa]
      exact hPath
  exact normalize_output_fixed (pyUrlparse v).scheme (pyUrlparse v).netloc
    (if (pyUrlparse v).path = [] then ['/'] else (pyUrlparse v).path)
    (pyUrlparse v).params (pyUrlparse v).query hs hn
    (fun c hc => (hNL c hc).1) (fun c hc => (hNL c hc).2)
    hp'ne hTSF' hPa' hParams hQuery hstrip

/-- The literal idempotence of `normalize_url` claimed by the specification
fails: `"http://a/b #f"` normalises to `"http://a/b "` (the fragment is cut,
but the resulting trailing space survives because `urlsplit` only strips
leading controls), and normalising that output strips the trailing space,
producing a different string. -/
theorem normalize_url_not_idempotent :
    ¬(∀ s t : String, normalize_url s = Except.ok t →
      normalize_url t = Except.ok t) := by
  intro hcon
  have h1 : normalize_url "http://a/b #f" = Except.ok "http://a/b " := rfl
  have h2 := hcon _ _ h1
  have h3 : normalize_url "http://a/b " = Except.ok "http://a/b" := rfl
  rw [h3] at h2
  have h4 : ("http://a/b" : String) = "http://a/b " := by injection h2
  exact absurd h4 (by decide)

/-- C10 (amended): `normalize_url` is idempotent on every output that
stripping leaves unchanged — for every input on which it succeeds, if the
produced URL has no leading/trailing whitespace (it never has leading
whitespace; trailing whitespace can only come from a whitespace character
kept in the path or query), then normalising the output returns it
unchanged. -/
theorem normalize_url_idempotent_on_output (s t : String)
    (h : normalize_url s = Except.ok t)
    (hstrip : pyStrip t.toList = t.toList) :
    normalize_url t = Except.ok t := by
  unfold normalize_url at h
  by_cases h0 : s.toList = []
  · rw [if_pos h0] at h
    exact Except.noConfusion h
  rw [if_neg h0] at h
  by_cases h1 : (pyUrlparse (removePrefixWWW (pyStrip s.toList))).scheme = []
  · rw [if_pos h1] at h
    exact normalizeParsed_fixed _ t h hstrip
  · rw [if_neg h1] at h
    exact normalizeParsed_fixed _ t h hstrip

theorem normalize_url_idempotent_on_output_witness :
    normalize_url "http://Ex.COM/a#frag" = Except.ok "http://ex.com/a" ∧
    pyStrip ("http://ex.com/a" : String).toList =
      ("http://ex.com/a" : String).toList ∧
    normalize_url "http://ex.com/a" = Except.ok "http://ex.com/a" :=
  ⟨rfl, rfl, normalize_url_idempotent_on_output "http://Ex.COM/a#frag"
    "http://ex.com/a" rfl rfl⟩

/-! ## 4.3 Batch URL fetching — `url_services.fetch_multiple_urls_content`

`_process_single_url` (lines 613–777) is embedded as a pure function of the
input URL and oracles for its effectful steps: the outcome of
`fetch_html_content` (an `Except` whose error is the raised exception,
tagged as `ValueError` or other to mirror the two `except` arms) and the two
HTML extractors (which catch their own exceptions and return records, so
total oracle functions are faithful).  `asyncio.gather(...,
return_exceptions=True)` (lines 831–859) is an oracle from task index to
outcome, where a task-level exception is also possible. -/

/-- A Python exception: `_process_single_url` distinguishes `ValueError`
(raised by `normalize_url`) from everything else. -/
inductive PyExn where
  | valueError (msg : String)
  | other (msg : String)

/-- The record `fetch_html_content` resolves with. -/
structure HtmlResult where
  success : Bool
  html_content : Option String
  final_url : Option String
  normalized_url : Option String
  title : Option String
  status_code : Option Int
  error : Option String

/-- The record `extract_text_from_html` returns. -/
structure TextResult where
  success : Bool
  text_content : Option String
  text_length : Option Nat

/-- The record `extract_hrefs_from_html` returns (`hrefs` is a list whenever
`success` is true, the only case in which it is read). -/
structure HrefsResult where
  success : Bool
  hrefs : List String

/-- The per-URL result record of `_process_single_url`: the keys of the
dictionaries built at lines 632–646, 718–731, 747–761 and 764–777
(`html_content` is commented out of the success record and absent here). -/
structure UrlResult where
  success : Bool
  url : Option String
  normalized_url : Option String
  final_url : Option String
  text_content : Option String
  text_length : Option Nat
  hrefs : Option (List String)
  hrefs_count : Option Nat
  title : Option String
  status_code : Option Int
  error : Option String

/-- Python truthiness of an optional string (`None` and `""` are falsy). -/
def truthyOpt (a : Option String) : Bool :=
  match a with
  | some s => !(s = "")
  | none => false

/-- Python `x or y` on optional strings (line 671). -/
def pyOrOpt (a b : Option String) : Option String :=
  if truthyOpt a then a else b

/-- `s.rstrip("/")`. -/
def rstripSlash (l : List Char) : List Char :=
  (l.reverse.dropWhile (· = '/')).reverse

/-- Lines 689–700: rebuild the normalized URL with a trailing slash (and no
fragment) unless it already ends in `/`. -/
def withTrailingSlash (u : String) : String :=
  if u.toList.getLast? = some '/' then u
  else
    String.mk (pyUrlunparse (pyUrlparse u.toList).scheme
      (pyUrlparse u.toList).netloc
      (if (pyUrlparse u.toList).path = ['/'] then ['/']
       else rstripSlash (pyUrlparse u.toList).path ++ ['/'])
      (pyUrlparse u.toList).params (pyUrlparse u.toList).query [])

/-- Lines 702–709: move the base URL to the front of the href list (removing
its first occurrence when already present). -/
def hrefsWithBase (nuh : String) (hrefs : List String) : List String :=
  if nuh ∈ hrefs then nuh :: hrefs.erase nuh else nuh :: hrefs

/-- Lines 711–717: order-preserving dedup that skips falsy (empty) hrefs. -/
def dedupHrefs : List String → List String → List String
  | _, [] => []
  | seen, h :: rest =>
    if h ≠ "" ∧ h ∉ seen then h :: dedupHrefs (h :: seen) rest
    else dedupHrefs seen rest

/-- Lines 683–718: the full href post-processing, applied when the href
extraction succeeded. -/
def processHrefs (nuh? : Option String) (hrefs : List String) : List String :=
  dedupHrefs []
    (match nuh? with
     | some nuh =>
       if nuh = "" then hrefs else hrefsWithBase (withTrailingSlash nuh) hrefs
     | none => hrefs)

/-- The result dictionary of lines 718–731, shared by the success and the
no-extraction paths. -/
def urlResultOfHtml (url : String) (hr : HtmlResult) (tc : Option String)
    (tl : Option Nat) (hf : Option (List String)) (hc : Option Nat) : UrlResult :=
  { success := hr.success, url := some url, normalized_url := hr.normalized_url,
    final_url := hr.final_url, text_content := tc, text_length := tl,
    hrefs := hf, hrefs_count := hc, title := hr.title,
    status_code := hr.status_code, error := hr.error }

/-- `_process_single_url` (lines 613–777). -/
def process_single_url (url : String) (fetch : Except PyExn HtmlResult)
    (textO : String → Option String → TextResult)
    (hrefsO : String → Option String → HrefsResult) : UrlResult :=
  if url = "" then
    { success := false, url := none, normalized_url := none, final_url := none,
      text_content := none, text_length := none, hrefs := none,
      hrefs_count := none, title := none, status_code := none,
      error := some "Invalid URL: must be a non-empty string" }
  else
    match normalize_url url with
    | Except.error e =>
      { success := false, url := some url, normalized_url := none,
        final_url := none, text_content := none, text_length := none,
        hrefs := none, hrefs_count := none, title := none, status_code := none,
        error := some ("URL validation error: " ++ e) }
    | Except.ok _ =>
      match fetch with
      | Except.error (PyExn.valueError e) =>
        { success := false, url := some url, normalized_url := none,
          final_url := none, text_content := none, text_length := none,
          hrefs := none, hrefs_count := none, title := none,
          status_code := none, error := some ("URL validation error: " ++ e) }
      | Except.error (PyExn.other e) =>
        { success := false, url := some url, normalized_url := none,
          final_url := none, text_content := none, text_length := none,
          hrefs := none, hrefs_count := none, title := none,
          status_code := none, error := some ("Unexpected error: " ++ e) }
      | Except.ok hr =>
        match hr.html_content with
        | some html =>
          if hr.success && !(html = "") then
            urlResultOfHtml url hr
              (if (textO html (pyOrOpt hr.final_url hr.normalized_url)).success
               then (textO html (pyOrOpt hr.final_url hr.normalized_url)).text_content
               else none)
              (if (textO html (pyOrOpt hr.final_url hr.normalized_url)).success
               then (textO html (pyOrOpt hr.final_url hr.normalized_url)).text_length
               else none)
              (if (hrefsO html (pyOrOpt hr.final_url hr.normalized_url)).success
               then some (processHrefs hr.normalized_url
                 (hrefsO html (pyOrOpt hr.final_url hr.normalized_url)).hrefs)
               else none)
              (if (hrefsO html (pyOrOpt hr.final_url hr.normalized_url)).success
               then some (processHrefs hr.normalized_url
                 (hrefsO html (pyOrOpt hr.final_url hr.normalized_url)).hrefs).length
               else none)
          else urlResultOfHtml url hr none none none none
        | none => urlResultOfHtml url hr none none none none

/-- One entry of the `asyncio.gather(..., return_exceptions=True)` result:
either a task-level exception or a completed `_process_single_url` run,
identified by the outcome of its fetch. -/
inductive TaskOutcome where
  | exn (msg : String)
  | ran (fetch : Except PyExn HtmlResult)

/-- The record built for a task-level exception (lines 845–859). -/
def taskExnRecord (url msg : String) : UrlResult :=
  { success := false, url := some url, normalized_url := none, final_url := none,
    text_content := none, text_length := none, hrefs := none, hrefs_count := none,
    title := none, status_code := none,
    error := some ("Task exception: " ++ msg) }

/-- `fetch_multiple_urls_content` (lines 780–865): guard the empty batch, run
one task per URL, and post-process gather results item by item. `batch_size`
and the semaphore only bound concurrency and do not affect the result. -/
def fetch_multiple_urls_content (urls : List String) (task : Nat → TaskOutcome)
    (textO : String → Option String → TextResult)
    (hrefsO : String → Option String → HrefsResult) : List UrlResult :=
  if urls = [] then []
  else
    urls.enum.map fun iu =>
      match task iu.1 with
      | TaskOutcome.exn msg => taskExnRecord iu.2 msg
      | TaskOutcome.ran f => process_single_url iu.2 f textO hrefsO

/-- C8: for every list of input URLs, `fetch_multiple_urls_content` returns
exactly one result record per input URL, in input order; the record at index
`i` is fully determined by `urls[i]` and that item's own outcome (a
task-level exception yields the failure record for `urls[i]`, anything else
the record of `_process_single_url` on `urls[i]`), so a failure of one item
never aborts the batch nor affects any other item's record. -/
theorem fetch_multiple_urls_per_item (urls : List String)
    (task : Nat → TaskOutcome) (textO : String → Option String → TextResult)
    (hrefsO : String → Option String → HrefsResult) :
    (fetch_multiple_urls_content urls task textO hrefsO).length = urls.length ∧
    ∀ i url, urls[i]? = some url →
      (fetch_multiple_urls_content urls task textO hrefsO)[i]? =
        some (match task i with
          | TaskOutcome.exn msg => taskExnRecord url msg
          | TaskOutcome.ran f => process_single_url url f textO hrefsO) := by
  constructor
  · unfold fetch_multiple_urls_content
    by_cases hu : urls = []
    · rw [if_pos hu, hu]
      rfl
    · rw [if_neg hu, List.length_map, List.enum_length]
  · intro i url hi
    unfold fetch_multiple_urls_content
    by_cases hu : urls = []
    · subst hu
      simp at hi
    · rw [if_neg hu, List.getElem?_map]
      have he : urls.enum[i]? = some (i, url) := by
        rw [show urls.enum = List.enumFrom 0 urls from rfl,
          List.getElem?_enumFrom, hi]
        simp
      rw [he]
      rfl

def witTask : Nat → TaskOutcome :=
  fun i => if i = 0 then TaskOutcome.exn "boom"
    else TaskOutcome.ran (Except.error (PyExn.other "net down"))

def witText : String → Option String → TextResult := fun _ _ => ⟨false, none, none⟩

def witHrefs : String → Option String → HrefsResult := fun _ _ => ⟨false, []⟩

theorem fetch_multiple_urls_per_item_witness :
    (["", "http://a.com"] : List String)[1]? = some "http://a.com" ∧
    (fetch_multiple_urls_content ["", "http://a.com"] witTask witText
        witHrefs)[1]? =
      some (process_single_url "http://a.com"
        (Except.error (PyExn.other "net down")) witText witHrefs) :=
  ⟨rfl, (fetch_multiple_urls_per_item ["", "http://a.com"] witTask witText
    witHrefs).2 1 "http://a.com" rfl⟩

theorem index_reindex_idempotent_witness :
    ((index_links_in_knowledge_base "a" [some ⟨some "u", some "hi", none⟩] witIdGen2 "t2"
        (index_links_in_knowledge_base "a" [some ⟨some "u", some "hi", none⟩]
          witIdGen1 "t1" [])).filter (linkFilterMatches "a" "u") =
      (linkPoints "a" [some ⟨some "u", some "hi", none⟩] witIdGen2 "t2").filter
        (linkFilterMatches "a" "u")) ∧
    ((index_files_in_knowledge_base "a" [some ⟨some "f", some "hi"⟩] witFileId "t2"
        (index_files_in_knowledge_base "a" [some ⟨some "f", some "hi"⟩]
          witFileId "t1" [])).filter (fileFilterMatches "a" "f") =
      (filePoints "a" [some ⟨some "f", some "hi"⟩] witFileId "t2").filter
        (fileFilterMatches "a" "f")) :=
  ⟨(index_reindex_idempotent.1 "a" [some ⟨some "u", some "hi", none⟩]
      witIdGen1 witIdGen2 "t1" "t2" [] "u" witIdGen2_injective
      (fun i p hp => absurd hp (List.not_mem_nil p))
      witIdGen_cross (by decide)).1,
    index_reindex_idempotent.2 "a" (some ⟨some "f", some "hi"⟩) witFileId
      "t1" "t2" [] "f" witFileId_injective
      (fun ks' i p hp => absurd hp (List.not_mem_nil p)) (by decide)⟩

end Elysium
